import Mathlib

/-!
Verification of the raj.quest worker core (src/worker/src/storage.ts,
src/worker/src/admin.ts, src/worker/src/index.ts password-gate, and the
public handlers): a shallow embedding of the bulk-format codec, the
record-store facade, password verification and the unlock rate limiter,
together with proofs settling the specification claims.

Strings are modelled as `List Char` (JS strings; lines never contain the
raw `'\n'` after splitting).  Platform builtins that are not part of this
repository (JSON.parse, atob, PBKDF2 key derivation, URL validation) are
passed as explicit function parameters to the definitions that call them,
mirroring their role as external collaborators.
-/

namespace RQ

abbrev Str := List Char

/-- Coerce a Lean string literal to the `List Char` model. -/
def str (s : String) : Str := s.data

/-- The characters JavaScript `\s` matches and `String.prototype.trim`
removes (WhiteSpace plus LineTerminator, ECMA-262). -/
def jsWs (c : Char) : Bool :=
  -- TAB LF VT FF CR SPACE NBSP OGHAM-SPACE-MARK, U+2000..U+200A, LS PS
  -- NNBSP MMSP IDEOGRAPHIC-SPACE ZWNBSP
  c.toNat = 9 || c.toNat = 10 || c.toNat = 11 || c.toNat = 12 || c.toNat = 13 ||
  c.toNat = 32 || c.toNat = 160 || c.toNat = 5760 ||
  (8192 ≤ c.toNat && c.toNat ≤ 8202) ||
  c.toNat = 8232 || c.toNat = 8233 || c.toNat = 8239 || c.toNat = 8287 ||
  c.toNat = 12288 || c.toNat = 65279

/-- JavaScript regex line terminators, which `.` does not match:
LF, CR, LS, PS. -/
def isLineTerm (c : Char) : Bool :=
  c.toNat = 10 || c.toNat = 13 || c.toNat = 8232 || c.toNat = 8233

/-- The character class `[a-zA-Z0-9_-]` used for keys by both parser
regexes and by `isValidKey`. -/
def isKeyChar (c : Char) : Bool :=
  (97 ≤ c.toNat && c.toNat ≤ 122) || (65 ≤ c.toNat && c.toNat ≤ 90) ||
  (48 ≤ c.toNat && c.toNat ≤ 57) || c.toNat = 95 || c.toNat = 45

/-- `String.prototype.trim`. -/
def trimS (s : Str) : Str :=
  ((s.dropWhile jsWs).reverse.dropWhile jsWs).reverse

/-- `text.split('\n')` (always returns at least one piece). -/
def splitLines : Str → List Str
  | [] => [[]]
  | c :: t =>
    if c = '\n' then [] :: splitLines t
    else
      match splitLines t with
      | [] => [[c]]
      | l :: ls => (c :: l) :: ls

/-- `lines.join('\n')`. -/
def joinLines : List Str → Str
  | [] => []
  | [l] => l
  | l :: ls => l ++ '\n' :: joinLines ls

/-!
## Regex matchers

`parseBulkFormat` matches every (pre-trimmed) line against two anchored
regexes.  The matchers below compute the exact captures that the JS
backtracking engine produces; the case analysis follows the engine's
preference order (longest key first, greedy whitespace, bracket group
preferred present, `.` refusing line terminators).
-/

/-- Capture of `\s*(.+)$` applied to `v` (the part of the line after
`->`): the longest whitespace prefix is dropped, but at least one
character must be left for `.+`, and `.` cannot match line
terminators. -/
def urlCapture (v : Str) : Option Str :=
  let u := v.dropWhile jsWs
  if u.isEmpty then
    match v.getLast? with
    | none => none
    | some c => if isLineTerm c then none else some [c]
  else
    if u.all (fun c => !isLineTerm c) then some u else none

/-- Match `->\s*(.+)$` at the start of `a`. -/
def arrowTail (a : Str) : Option Str :=
  if a.head? = some '-' && a.tail.head? = some '>' then urlCapture a.tail.tail
  else none

/-- Backtracking result of `line.match(/^([a-zA-Z0-9_-]+)\s*(?:\[([^\]]+)\])?\s*---$/)`:
`some (key, password?)` with the two captures, or `none`.  (storage.ts
line 161.) -/
def noteMatch (s : Str) : Option (Str × Option Str) :=
  let R := s.takeWhile isKeyChar
  let rest := s.drop R.length
  if R.isEmpty then none
  else if rest.isEmpty then
    -- the whole line is key characters: the literal `---` must be taken
    -- from the end of the key run, leaving a nonempty key
    if 3 < R.length && R.drop (R.length - 3) = str "---" then
      some (R.take (R.length - 3), none)
    else none
  else
    let a1 := rest.dropWhile jsWs
    if a1.head? = some '[' then
      let t := a1.tail
      let P := t.takeWhile (fun c => c != ']')
      let aft := t.drop P.length
      if aft.head? = some ']' then
        if !P.isEmpty && aft.tail.dropWhile jsWs = str "---" then some (R, some P)
        else none
      else none
    else if a1 = str "---" then some (R, none) else none

/-- The preferred alternative of the redirect regex: key equal to the
whole key run `R`, optional bracket group, then `->\s*(.+)$` over the
remainder `rest`. -/
def redirectPrimary (R rest : Str) : Option (Str × Option Str × Str) :=
  let a1 := rest.dropWhile jsWs
  if a1.head? = some '[' then
    let t := a1.tail
    let P := t.takeWhile (fun c => c != ']')
    let aft := t.drop P.length
    if aft.head? = some ']' then
      if !P.isEmpty then
        (arrowTail (aft.tail.dropWhile jsWs)).map (fun url => (R, some P, url))
      else none
    else none
  else (arrowTail a1).map (fun url => (R, none, url))

/-- Backtracking result of
`line.match(/^([a-zA-Z0-9_-]+)\s*(?:\[([^\]]+)\])?\s*->\s*(.+)$/)`:
`some (key, password?, url)`, or `none`.  (storage.ts line 195.)  When the
key run ends in `-` immediately followed by `>`, the engine backtracks one
character of the key to form the `->` literal. -/
def redirectMatch (s : Str) : Option (Str × Option Str × Str) :=
  if (s.takeWhile isKeyChar).isEmpty then none
  else
    match redirectPrimary (s.takeWhile isKeyChar)
        (s.drop (s.takeWhile isKeyChar).length) with
    | some r => some r
    | none =>
      if (s.drop (s.takeWhile isKeyChar).length).head? = some '>' then
        if (s.takeWhile isKeyChar).getLast? = some '-' &&
            2 ≤ (s.takeWhile isKeyChar).length then
          (urlCapture (s.drop (s.takeWhile isKeyChar).length).tail).map
            (fun url =>
              ((s.takeWhile isKeyChar).take ((s.takeWhile isKeyChar).length - 1),
                none, url))
        else none
      else none

/-! ## Data model (storage.ts) -/

inductive RecType where
  | uri
  | note
deriving DecidableEq, Repr

/-- `StoredRecord` (storage.ts line 5).  Optional JS fields become
`Option`; JS treats both an absent field and `""` as falsy. -/
structure StoredRecord where
  type : RecType
  content : Str
  passwordHash : Option Str := none
  createdAt : Option Str := none
  updatedAt : Option Str := none
deriving DecidableEq, Repr

/-- `ParsedEntry` (storage.ts line 134). -/
structure ParsedEntry where
  key : Str
  record : StoredRecord
  rawPassword : Option Str := none
deriving DecidableEq, Repr

/-- The two parse-error messages of `parseBulkFormat`, kept structurally:
`unclosed key n` stands for `Unclosed note block for key "k" starting at
line n`, and `unrecognized n line` for `Unrecognized format at line n:
"line"`. -/
inductive ParseErr where
  | unclosed (key : Str) (startLine : Nat)
  | unrecognized (lineNo : Nat) (line : Str)
deriving DecidableEq, Repr

structure ParseResult where
  entries : List ParsedEntry
  errors : List ParseErr
deriving DecidableEq, Repr

/-- JS truthiness of an optional string field (`undefined` and `""` are
falsy). -/
def jsTruthyOpt : Option Str → Bool
  | none => false
  | some s => !s.isEmpty

/-- `a || b` on an optional string (used by `record.createdAt || now`). -/
def jsOrStr (o : Option Str) (d : Str) : Str :=
  match o with
  | some s => if s.isEmpty then d else s
  | none => d

/-! ## parseBulkFormat (storage.ts lines 145-221) -/

/-- One iteration of the main `while (i < lines.length)` loop of
`parseBulkFormat`, at a nonempty remainder `l :: t` whose head sits at
0-based index `i` of the document; `recur` continues the loop.  A blank or
comment line is skipped; a note header consumes lines up to the closing
`---` (an unclosed block pushes one error and leaves the loop with `i` at
`lines.length`, so nothing later is parsed); a redirect line or an
unrecognized line advances by one. -/
def parseStep (recur : List Str → Nat → ParseResult) (l : Str) (t : List Str)
    (i : Nat) : ParseResult :=
  let line := trimS l
  if line.isEmpty then recur t (i + 1)
  else if line.head? = some '#' then recur t (i + 1)
  else
    match noteMatch line with
    | some (key, pw) =>
      match t.dropWhile (fun x => trimS x != str "---") with
      | [] => ⟨[], [ParseErr.unclosed key (i + 1)]⟩
      | _ :: rest =>
        let content := t.takeWhile (fun x => trimS x != str "---")
        let r := recur rest (i + 1 + content.length + 1)
        ⟨⟨key, ⟨RecType.note, joinLines content, none, none, none⟩, pw⟩ :: r.entries,
          r.errors⟩
    | none =>
      match redirectMatch line with
      | some (key, pw, url) =>
        let r := recur t (i + 1)
        ⟨⟨key, ⟨RecType.uri, trimS url, none, none, none⟩, pw⟩ :: r.entries,
          r.errors⟩
      | none =>
        let r := recur t (i + 1)
        ⟨r.entries, ParseErr.unrecognized (i + 1) line :: r.errors⟩

/-- The loop, driven by explicit fuel so that it is structural (each
iteration consumes at least one line, so any fuel at least the number of
remaining lines is enough; `parseLoop` below always supplies enough). -/
def parseLoopF : Nat → List Str → Nat → ParseResult
  | _, [], _ => ⟨[], []⟩
  | 0, _ :: _, _ => ⟨[], []⟩
  | fuel + 1, l :: t, i => parseStep (parseLoopF fuel) l t i

/-- The main loop of `parseBulkFormat` on the remaining lines, `i` being
the document index of the first. -/
def parseLoop (lines : List Str) (i : Nat) : ParseResult :=
  parseLoopF lines.length lines i

/-- `parseBulkFormat` (storage.ts line 145). -/
def parseBulkFormat (text : Str) : ParseResult :=
  parseLoop (splitLines text) 0

/-! ## serializeBulkFormat (storage.ts lines 226-256) -/

def placeholderStr : Str := str "********"

/-- The fixed comment header emitted by `serializeBulkFormat`. -/
def headerLines : List Str :=
  [str "# raj.quest Redirects",
   str "# Format: key -> url",
   str "# Password protected: key [password] -> url",
   str "# Notes: key ---",
   str "#        content here",
   str "#        ---",
   str ""]

/-- The elements pushed onto `lines` for one record; note content is
pushed as a single element even when it spans several lines, exactly as
the source does. -/
def recordLines (key : Str) (r : StoredRecord) : List Str :=
  let ph : Str := if jsTruthyOpt r.passwordHash then str " [********]" else []
  match r.type with
  | RecType.uri => [key ++ ph ++ str " -> " ++ r.content]
  | RecType.note => [key ++ ph ++ str " ---", r.content, str "---", str ""]

/-- Lexicographic (UTF code point) string order used to model the default
`Array.prototype.sort()` comparison of keys. -/
def strLe : Str → Str → Bool
  | [], _ => true
  | _ :: _, [] => false
  | a :: s, b :: t =>
    if a.val < b.val then true
    else if b.val < a.val then false
    else strLe s t

def insertByKey (p : Str × StoredRecord) :
    List (Str × StoredRecord) → List (Str × StoredRecord)
  | [] => [p]
  | q :: t => if strLe p.1 q.1 then p :: q :: t else q :: insertByKey p t

/-- `Array.from(records.keys()).sort()`, applied to the association-list
model of the `Map`. -/
def sortByKey : List (Str × StoredRecord) → List (Str × StoredRecord)
  | [] => []
  | p :: t => insertByKey p (sortByKey t)

/-- `serializeBulkFormat` (storage.ts line 226); the `Map` is modelled as
an association list (unique keys, insertion order). -/
def serializeBulkFormat (records : List (Str × StoredRecord)) : Str :=
  joinLines (headerLines ++ (sortByKey records).flatMap (fun p => recordLines p.1 p.2))

/-- `isValidKey` (storage.ts line 261). -/
def isValidKeyB (key : Str) : Bool :=
  key.all isKeyChar && !key.isEmpty && key.length ≤ 100

/-! ## Record store facade (storage.ts lines 29-67) -/

/-- The record persisted by `saveRecord` (storage.ts line 45): spread of
the incoming record with `updatedAt: now` and
`createdAt: record.createdAt || now`. -/
def saveRecordStamp (record : StoredRecord) (now : Str) : StoredRecord :=
  { record with updatedAt := some now, createdAt := some (jsOrStr record.createdAt now) }

/-- `getRecord` (storage.ts line 29).  The KV collaborator is a partial
map to raw strings; `JSON.parse` inside try/catch is modelled by the
external `decode` function returning `none` on any unparseable value.
`if (!data) return null` also treats the empty string as absent. -/
def getRecordM (decode : Str → Option StoredRecord) (kv : Str → Option Str)
    (key : Str) : Option StoredRecord :=
  match kv key with
  | none => none
  | some data => if data.isEmpty then none else decode data

/-! ## Admin bulk save (admin.ts handleSave, lines 826-924) -/

/-- The map of stored records (the KV namespace seen through the JSON
codec). -/
def RecMap := Str → Option StoredRecord

def putRec (m : RecMap) (k : Str) (r : StoredRecord) : RecMap :=
  fun x => if x = k then some r else m x

def delRec (m : RecMap) (k : Str) : RecMap :=
  fun x => if x = k then none else m x

/-- `existingRecords.get(entry.key)` on the association-list model of the
listing returned by `listAllRecords`. -/
def lookupA (l : List (Str × StoredRecord)) (k : Str) : Option StoredRecord :=
  (l.find? (fun p => p.1 = k)).map (fun p => p.2)

/-- The password/timestamp merge performed on one entry inside the save
loop of `handleSave` (admin.ts lines 894-908): a truthy `rawPassword` is
hashed (there is no placeholder check on this path), otherwise a truthy
existing hash is carried forward; an existing record's `createdAt` always
overwrites the entry's. -/
def mergeEntry (existing : Option StoredRecord) (e : ParsedEntry)
    (hash : Str → Str) : StoredRecord :=
  let r1 :=
    if jsTruthyOpt e.rawPassword then
      { e.record with passwordHash := some (hash (e.rawPassword.getD [])) }
    else
      match existing with
      | some ex =>
        if jsTruthyOpt ex.passwordHash then { e.record with passwordHash := ex.passwordHash }
        else e.record
      | none => e.record
  match existing with
  | some ex => { r1 with createdAt := ex.createdAt }
  | none => r1

/-- Delete phase of `handleSave` (admin.ts lines 886-891): every listed
key absent from the submission is deleted. -/
def deletePhase (m : RecMap) (existingKeys : List Str) (newKeys : List Str) : RecMap :=
  existingKeys.foldl (fun acc k => if newKeys.contains k then acc else delRec acc k) m

/-- Save phase of `handleSave` (admin.ts lines 894-911): each entry is
merged against the listing and persisted through `saveRecord`. -/
def savePhase (m : RecMap) (existing : List (Str × StoredRecord))
    (entries : List ParsedEntry) (hash : Str → Str) (now : Str) : RecMap :=
  entries.foldl
    (fun acc e => putRec acc e.key (saveRecordStamp (mergeEntry (lookupA existing e.key) e hash) now))
    m

/-- `handleSave` (admin.ts lines 826-924) reduced to its effect on the
record store: parse, reject on parse or validation errors (`none`),
otherwise delete stale keys then merge-and-save every entry.  `existing`
is the listing obtained from `listAllRecords`, `hash` the salted
`hashPassword` primitive, `validUrl` the external `new URL` check. -/
def handleSaveModel (existing : List (Str × StoredRecord)) (m : RecMap)
    (text : Str) (hash : Str → Str) (now : Str) (validUrl : Str → Bool) :
    Option RecMap :=
  let pr := parseBulkFormat text
  if !pr.errors.isEmpty then none
  else if pr.entries.any
      (fun e => !isValidKeyB e.key ||
        (e.record.type = RecType.uri && !validUrl e.record.content)) then none
  else
    some (savePhase
      (deletePhase m (existing.map (fun p => p.1)) (pr.entries.map (fun e => e.key)))
      existing pr.entries hash now)

/-! ## Password verification (auth.ts verifyPassword) -/

/-- `verifyPassword` (admin.ts source lines 973-1016).  `atob` and the
PBKDF2 derivation are external: `atobF` returns the decoded bytes or
`none` where the builtin throws (the surrounding try/catch then returns
`false`); `pbkdf2 password salt` is the 256-bit derived key.  The final
comparison is the constant-time OR-fold of the source. -/
def verifyPasswordM (atobF : Str → Option (List Nat))
    (pbkdf2 : Str → List Nat → List Nat) (password storedHash : Str) : Bool :=
  match atobF storedHash with
  | none => false
  | some combined =>
    let salt := combined.take 16
    let originalHash := combined.drop 16
    let newHash := pbkdf2 password salt
    if newHash.length ≠ originalHash.length then false
    else
      decide (((newHash.zip originalHash).foldl
        (fun acc p => acc ||| (p.1 ^^^ p.2)) 0) = 0)

/-! ## Unlock rate limiting (password-gate, index.ts source lines 114-214)
and handleUnlock (part_002 lines 282-352) -/

def MAX_UNLOCK_ATTEMPTS : Nat := 10

/-- `UNLOCK_RATE_LIMIT_WINDOW_MS = 60 * 60 * 1000`. -/
def UNLOCK_WINDOW : Nat := 3600000

structure RLEntry where
  attempts : Nat
  resetAt : Nat
deriving DecidableEq, Repr

/-- The module-level `unlockRateLimitMap`, keyed by the
`` `${ip}:${key}` `` string. -/
def RLMap := Str → Option RLEntry

def rlPut (m : RLMap) (k : Str) (e : RLEntry) : RLMap :=
  fun x => if x = k then some e else m x

def rlDel (m : RLMap) (k : Str) : RLMap :=
  fun x => if x = k then none else m x

def rateLimitKey (ip key : Str) : Str := ip ++ ':' :: key

structure RLCheck where
  allowed : Bool
  retryAfter : Option Nat
deriving DecidableEq, Repr

/-- `Math.ceil(ms / 1000)` on a nonnegative number of milliseconds. -/
def ceilSeconds (ms : Nat) : Nat := (ms + 999) / 1000

/-- `checkUnlockRateLimit` (source lines 163-188): expired entries are
deleted, then a surviving entry with `attempts >= MAX_UNLOCK_ATTEMPTS`
rejects with a retry-after in seconds.  Returns the result together with
the (possibly cleaned) map. -/
def checkUnlockRateLimit (m : RLMap) (now : Nat) (ip key : Str) :
    RLCheck × RLMap :=
  let k := rateLimitKey ip key
  let m1 :=
    match m k with
    | some e => if e.resetAt < now then rlDel m k else m
    | none => m
  match m1 k with
  | none => (⟨true, none⟩, m1)
  | some e =>
    if MAX_UNLOCK_ATTEMPTS ≤ e.attempts then
      (⟨false, some (ceilSeconds (e.resetAt - now))⟩, m1)
    else (⟨true, none⟩, m1)

/-- `recordUnlockAttempt` (source lines 193-206): a fresh or expired pair
restarts at one attempt with a new window; otherwise the counter is
incremented in place. -/
def recordUnlockAttempt (m : RLMap) (now : Nat) (ip key : Str) : RLMap :=
  let k := rateLimitKey ip key
  match m k with
  | none => rlPut m k ⟨1, now + UNLOCK_WINDOW⟩
  | some e =>
    if e.resetAt < now then rlPut m k ⟨1, now + UNLOCK_WINDOW⟩
    else rlPut m k ⟨e.attempts + 1, e.resetAt⟩

/-- `clearUnlockRateLimit` (source lines 211-214). -/
def clearUnlockRateLimit (m : RLMap) (ip key : Str) : RLMap :=
  rlDel m (rateLimitKey ip key)

inductive UnlockOutcome where
  | rateLimited (retryAfter : Option Nat)
  | notFound
  | redirectNoPassword
  | passwordRequired
  | incorrect
  | unlocked
deriving DecidableEq, Repr

/-- `handleUnlock` (part_002 lines 282-352) reduced to its decision
structure and its effect on the rate-limit map.  `record` is the result
of `getRecord`, `password` the posted form field (`none` or `""` are both
falsy), and `verify` the outcome of the external password verification;
the rate limit is checked before anything else, a failed verification is
recorded, and a successful one clears the pair. -/
def handleUnlock (m : RLMap) (now : Nat) (ip key : Str)
    (record : Option StoredRecord) (password : Option Str) (verify : Bool) :
    UnlockOutcome × RLMap :=
  let (chk, m1) := checkUnlockRateLimit m now ip key
  if !chk.allowed then (UnlockOutcome.rateLimited chk.retryAfter, m1)
  else
    match record with
    | none => (UnlockOutcome.notFound, m1)
    | some r =>
      if !jsTruthyOpt r.passwordHash then (UnlockOutcome.redirectNoPassword, m1)
      else
        match password with
        | none => (UnlockOutcome.passwordRequired, m1)
        | some p =>
          if p.isEmpty then (UnlockOutcome.passwordRequired, m1)
          else if !verify then (UnlockOutcome.incorrect, recordUnlockAttempt m1 now ip key)
          else (UnlockOutcome.unlocked, clearUnlockRateLimit m1 ip key)

/-! ## Well-formed document items

A bulk document made only of valid constructs decomposes into items:
ignored lines (blank or comment), redirect lines, and complete note
blocks.  These drive the universally-quantified parser claims. -/

inductive Item where
  | plain (l : Str)
  | redirect (l : Str)
  | noteBlock (header : Str) (content : List Str) (closer : Str)
deriving DecidableEq, Repr

/-- Validity of an item with respect to the parser's own line tests. -/
def itemOk : Item → Prop
  | Item.plain l => trimS l = [] ∨ (trimS l).head? = some '#'
  | Item.redirect l => noteMatch (trimS l) = none ∧ (redirectMatch (trimS l)).isSome
  | Item.noteBlock h c cl =>
      (noteMatch (trimS h)).isSome ∧ (∀ x ∈ c, trimS x ≠ str "---") ∧ trimS cl = str "---"

def itemLines : Item → List Str
  | Item.plain l => [l]
  | Item.redirect l => [l]
  | Item.noteBlock h c cl => h :: c ++ [cl]

/-- The entries the parser produces for one valid item. -/
def itemEntries : Item → List ParsedEntry
  | Item.plain _ => []
  | Item.redirect l =>
    (match redirectMatch (trimS l) with
     | some (k, pw, url) => [⟨k, ⟨RecType.uri, trimS url, none, none, none⟩, pw⟩]
     | none => [])
  | Item.noteBlock h c _ =>
    (match noteMatch (trimS h) with
     | some (k, pw) => [⟨k, ⟨RecType.note, joinLines c, none, none, none⟩, pw⟩]
     | none => [])

def docLines (items : List Item) : List Str := items.flatMap itemLines

def docEntries (items : List Item) : List ParsedEntry := items.flatMap itemEntries

/-- A line the parser cannot recognise at top level: non-blank,
non-comment, matching neither grammar. -/
def malformedLine (l : Str) : Prop :=
  trimS l ≠ [] ∧ (trimS l).head? ≠ some '#' ∧
  noteMatch (trimS l) = none ∧ redirectMatch (trimS l) = none

/-! ## Representable records (the amended round-trip hypotheses) -/

/-- Keys the bulk format can carry: nonempty, drawn from
`[A-Za-z0-9_-]`. -/
def wfKey (k : Str) : Prop := k ≠ [] ∧ ∀ c ∈ k, isKeyChar c

/-- Records the bulk format can represent faithfully: a redirect target
must be a single nonempty line already trimmed and free of regex line
terminators; a note body must contain no line that trims to `---`. -/
def wfRecord (r : StoredRecord) : Prop :=
  match r.type with
  | RecType.uri =>
      r.content ≠ [] ∧ trimS r.content = r.content ∧
      ∀ c ∈ r.content, isLineTerm c = false
  | RecType.note => ∀ x ∈ splitLines r.content, trimS x ≠ str "---"

/-- Lines (as fed to `join('\n')`) contain no raw newline. -/
def nlFree (l : Str) : Prop := ∀ c ∈ l, c ≠ '\n'

/-- The entry the parser recovers for a serialized record: same key, type
and content, and the placeholder as `rawPassword` exactly when a (truthy)
hash was stored. -/
def entryOfRecord (p : Str × StoredRecord) : ParsedEntry :=
  ⟨p.1, ⟨p.2.type, p.2.content, none, none, none⟩,
   if jsTruthyOpt p.2.passwordHash then some placeholderStr else none⟩

/-- The valid items that one serialized record contributes to the
document: a redirect line, or a note block followed by the blank
separator line. -/
def itemsOfRecord (p : Str × StoredRecord) : List Item :=
  match p.2.type with
  | RecType.uri =>
    [Item.redirect (p.1 ++
      (if jsTruthyOpt p.2.passwordHash then str " [********]" else []) ++
      str " -> " ++ p.2.content)]
  | RecType.note =>
    [Item.noteBlock (p.1 ++
        (if jsTruthyOpt p.2.passwordHash then str " [********]" else []) ++
        str " ---")
      (splitLines p.2.content) (str "---"),
     Item.plain (str "")]

/-- The fixed comment header, seen as ignored items. -/
def headerItems : List Item := headerLines.map Item.plain

/-!
# Lemmas

Character-class disjointness, trim/split/join algebra, matcher
computations on rendered lines, and the chunked-parsing lemma.
-/

theorem keyChar_not_ws {c : Char} (h : isKeyChar c = true) : jsWs c = false := by
  simp only [isKeyChar, Bool.or_eq_true, Bool.and_eq_true, decide_eq_true_eq] at h
  simp only [jsWs, Bool.or_eq_false_iff, Bool.and_eq_false_iff,
    decide_eq_false_iff_not]
  omega

theorem keyChar_not_lineTerm {c : Char} (h : isKeyChar c = true) :
    isLineTerm c = false := by
  simp only [isKeyChar, Bool.or_eq_true, Bool.and_eq_true, decide_eq_true_eq] at h
  simp only [isLineTerm, Bool.or_eq_false_iff, decide_eq_false_iff_not]
  omega

theorem keyChar_ne_hash {c : Char} (h : isKeyChar c = true) : c ≠ '#' := by
  intro hc
  subst hc
  simp [isKeyChar] at h

theorem keyChar_ne_nl {c : Char} (h : isKeyChar c = true) : c ≠ '\n' := by
  intro hc
  subst hc
  simp [isKeyChar] at h

theorem dropWhile_eq_self_of_head {p : Char → Bool} {l : Str}
    (h : ∀ c, l.head? = some c → p c = false) : l.dropWhile p = l := by
  cases l with
  | nil => rfl
  | cons c t =>
    apply List.dropWhile_cons_of_neg
    simp [h c rfl]

theorem trimS_eq_self {l : Str} (h1 : ∀ c, l.head? = some c → jsWs c = false)
    (h2 : ∀ c, l.getLast? = some c → jsWs c = false) : trimS l = l := by
  unfold trimS
  rw [dropWhile_eq_self_of_head h1]
  rw [dropWhile_eq_self_of_head (by simpa using h2)]
  exact l.reverse_reverse

theorem splitLines_ne_nil (s : Str) : splitLines s ≠ [] := by
  match s with
  | [] => simp [splitLines]
  | c :: t =>
    rw [splitLines]
    by_cases hc : c = '\n'
    · simp [hc]
    · simp only [hc, if_false]
      cases htl : splitLines t with
      | nil => simp
      | cons l ls => simp

theorem splitLines_no_nl {l : Str} (h : ∀ c ∈ l, c ≠ '\n') : splitLines l = [l] := by
  induction l with
  | nil => rfl
  | cons c t ih =>
    rw [splitLines]
    have hc : c ≠ '\n' := h c (by simp)
    simp only [hc, if_false]
    rw [ih (fun x hx => h x (by simp [hx]))]

theorem splitLines_append (x y : Str) :
    splitLines (x ++ '\n' :: y) = splitLines x ++ splitLines y := by
  induction x with
  | nil => simp [splitLines]
  | cons c t ih =>
    by_cases hc : c = '\n'
    · subst hc
      simp only [List.cons_append]
      rw [splitLines, if_pos rfl, splitLines, if_pos rfl, ih]
      simp
    · simp only [List.cons_append]
      rw [splitLines, if_neg hc, splitLines, if_neg hc, ih]
      cases htl : splitLines t with
      | nil => exact absurd htl (splitLines_ne_nil t)
      | cons l ls => simp

theorem joinLines_splitLines (s : Str) : joinLines (splitLines s) = s := by
  induction s with
  | nil => rfl
  | cons c t ih =>
    rw [splitLines]
    by_cases hc : c = '\n'
    · subst hc
      simp only [if_pos rfl]
      cases htl : splitLines t with
      | nil => exact absurd htl (splitLines_ne_nil t)
      | cons l ls =>
        rw [htl] at ih
        simp [joinLines, ih]
    · simp only [hc, if_false]
      cases htl : splitLines t with
      | nil => exact absurd htl (splitLines_ne_nil t)
      | cons l ls =>
        rw [htl] at ih
        cases ls with
        | nil => simp_all [joinLines]
        | cons l2 ls2 => simp_all [joinLines]

theorem splitLines_joinLines_flat :
    ∀ (ls : List Str), ls ≠ [] → splitLines (joinLines ls) = ls.flatMap splitLines
  | [], h => absurd rfl h
  | [l], _ => by simp [joinLines]
  | l :: l2 :: ls, _ => by
    have hjl : joinLines (l :: l2 :: ls) = l ++ '\n' :: joinLines (l2 :: ls) := rfl
    rw [hjl, splitLines_append,
      splitLines_joinLines_flat (l2 :: ls) (by simp)]
    simp

/-! ## Matcher computations on rendered lines -/

theorem takeWhile_key_stop {k rest : Str} {c : Char}
    (hk : ∀ x ∈ k, isKeyChar x = true) (hc : isKeyChar c = false) :
    (k ++ c :: rest).takeWhile isKeyChar = k := by
  rw [List.takeWhile_append_of_pos hk,
    List.takeWhile_cons_of_neg (by simp [hc]), List.append_nil]

theorem dropWhile_eq_self_head {p : Char → Bool} {l : Str} (h : l.dropWhile p = l) :
    ∀ c, l.head? = some c → p c = false := by
  intro c hc
  cases l with
  | nil => simp at hc
  | cons a t =>
    simp only [List.head?_cons, Option.some.injEq] at hc
    subst hc
    by_contra hp
    simp only [Bool.not_eq_false] at hp
    rw [List.dropWhile_cons_of_pos hp] at h
    have h1 := (List.dropWhile_sublist (l := t) p).length_le
    have h2 := congrArg List.length h
    simp only [List.length_cons] at h2
    omega

theorem trim_self_bounds {l : Str} (h : trimS l = l) :
    (∀ c, l.head? = some c → jsWs c = false) ∧
    (∀ c, l.getLast? = some c → jsWs c = false) := by
  have hlen := congrArg List.length h
  unfold trimS at hlen
  simp only [List.length_reverse] at hlen
  have h1 : (l.dropWhile jsWs).length ≤ l.length :=
    (List.dropWhile_sublist _).length_le
  have h2 : ((l.dropWhile jsWs).reverse.dropWhile jsWs).length ≤
      (l.dropWhile jsWs).length := by
    have := (List.dropWhile_sublist (l := (l.dropWhile jsWs).reverse) jsWs).length_le
    simpa using this
  have hdl : (l.dropWhile jsWs).length = l.length := by omega
  have hd : l.dropWhile jsWs = l := (List.dropWhile_sublist _).eq_of_length hdl
  have hdr : l.reverse.dropWhile jsWs = l.reverse := by
    have h3 : (l.reverse.dropWhile jsWs).reverse = l := by
      unfold trimS at h
      rw [hd] at h
      exact h
    have := congrArg List.reverse h3
    simpa using this
  refine ⟨dropWhile_eq_self_head hd, fun c hc => ?_⟩
  exact dropWhile_eq_self_head hdr c (by simpa using hc)

theorem isEmpty_false_of_ne {l : Str} (h : l ≠ []) : l.isEmpty = false := by
  cases l with
  | nil => exact absurd rfl h
  | cons a t => rfl

theorem head_key_not_ws {k rest : Str} (hk1 : k ≠ [])
    (hk2 : ∀ c ∈ k, isKeyChar c = true) :
    ∀ c, (k ++ rest).head? = some c → jsWs c = false := by
  intro c hc
  cases k with
  | nil => exact absurd rfl hk1
  | cons a t =>
    simp only [List.cons_append, List.head?_cons, Option.some.injEq] at hc
    subst hc
    exact keyChar_not_ws (hk2 _ (by simp))

/-- A line that begins with a nonempty run of key characters and ends in a
non-whitespace character is its own trim. -/
theorem trimS_key_led {k rest : Str} (hk1 : k ≠ [])
    (hk2 : ∀ c ∈ k, isKeyChar c = true)
    (hlast : ∀ c, (k ++ rest).getLast? = some c → jsWs c = false) :
    trimS (k ++ rest) = k ++ rest :=
  trimS_eq_self (head_key_not_ws hk1 hk2) hlast

theorem noteMatch_header_plain {k : Str} (hk1 : k ≠ [])
    (hk2 : ∀ c ∈ k, isKeyChar c = true) :
    noteMatch (k ++ str " ---") = some (k, none) := by
  have hs : str " ---" = ' ' :: str "---" := rfl
  have htw : (k ++ str " ---").takeWhile isKeyChar = k := by
    rw [hs]
    exact takeWhile_key_stop hk2 (by decide)
  have hdrop : (k ++ str " ---").drop k.length = str " ---" := List.drop_left k _
  unfold noteMatch
  simp only [htw, hdrop, isEmpty_false_of_ne hk1]
  rfl

theorem length_dropWhile_tail_le {p : Str → Bool} {t rest : List Str} {x : Str}
    (h : t.dropWhile p = x :: rest) : rest.length < t.length := by
  have h1 := (List.dropWhile_sublist (l := t) p).length_le
  rw [h] at h1
  simp only [List.length_cons] at h1
  omega

theorem parseLoopF_congr :
    ∀ (lines : List Str) (f g i : Nat), lines.length ≤ f → lines.length ≤ g →
      parseLoopF f lines i = parseLoopF g lines i
  | [], f, g, _, _, _ => by cases f <;> cases g <;> rfl
  | _ :: _, 0, _, _, hf, _ => by simp at hf
  | _ :: _, _ + 1, 0, _, _, hg => by simp at hg
  | l :: t, f + 1, g + 1, i, hf, hg => by
    simp only [List.length_cons, Nat.add_le_add_iff_right] at hf hg
    show parseStep (parseLoopF f) l t i = parseStep (parseLoopF g) l t i
    unfold parseStep
    by_cases h1 : (trimS l).isEmpty
    · simp only [h1, if_true]
      exact parseLoopF_congr t f g (i + 1) hf hg
    · simp only [h1, if_false]
      by_cases h2 : (trimS l).head? = some '#'
      · simp only [h2, if_true]
        exact parseLoopF_congr t f g (i + 1) hf hg
      · simp only [h2, if_false]
        cases hnm : noteMatch (trimS l) with
        | some kp =>
          cases hdw : t.dropWhile (fun x => trimS x != str "---") with
          | nil => rfl
          | cons x rest =>
            have hlen : rest.length ≤ t.length :=
              Nat.le_of_lt (length_dropWhile_tail_le hdw)
            simp only
            rw [parseLoopF_congr rest f g _ (hlen.trans hf) (hlen.trans hg)]
            simp
        | none =>
          cases hrm : redirectMatch (trimS l) with
          | some kpu =>
            simp only
            rw [parseLoopF_congr t f g (i + 1) hf hg]
          | none =>
            simp only
            rw [parseLoopF_congr t f g (i + 1) hf hg]
termination_by lines _ _ _ _ _ => lines.length
decreasing_by
  all_goals simp_wf
  all_goals try omega
  all_goals
    have hdwl := length_dropWhile_tail_le hdw
    omega

/-- The unfolding equation for `parseLoop` at a nonempty remainder. -/
theorem parseLoop_cons (l : Str) (t : List Str) (i : Nat) :
    parseLoop (l :: t) i = parseStep parseLoop l t i := by
  show parseStep (parseLoopF t.length) l t i = parseStep parseLoop l t i
  unfold parseStep
  by_cases h1 : (trimS l).isEmpty
  · simp only [h1, if_true]
    rfl
  · simp only [h1, if_false]
    by_cases h2 : (trimS l).head? = some '#'
    · simp only [h2, if_true]
      rfl
    · simp only [h2, if_false]
      cases hnm : noteMatch (trimS l) with
      | some kp =>
        cases hdw : t.dropWhile (fun x => trimS x != str "---") with
        | nil => rfl
        | cons x rest =>
          have hlen : rest.length ≤ t.length :=
            Nat.le_of_lt (length_dropWhile_tail_le hdw)
          simp only
          rw [parseLoopF_congr rest t.length rest.length _ hlen le_rfl]
          rfl
      | none =>
        cases hrm : redirectMatch (trimS l) with
        | some kpu => rfl
        | none => rfl

theorem noteMatch_header_ph {k : Str} (hk1 : k ≠ [])
    (hk2 : ∀ c ∈ k, isKeyChar c = true) :
    noteMatch (k ++ str " [********] ---") = some (k, some placeholderStr) := by
  have hs : str " [********] ---" = ' ' :: str "[********] ---" := rfl
  have htw : (k ++ str " [********] ---").takeWhile isKeyChar = k := by
    rw [hs]
    exact takeWhile_key_stop hk2 (by decide)
  have hdrop : (k ++ str " [********] ---").drop k.length = str " [********] ---" :=
    List.drop_left k _
  unfold noteMatch
  simp only [htw, hdrop, isEmpty_false_of_ne hk1]
  rfl

theorem all_not_lineTerm {C : Str} (hCl : ∀ c ∈ C, isLineTerm c = false) :
    C.all (fun c => !isLineTerm c) = true := by
  rw [List.all_eq_true]
  intro c hc
  simp [hCl c hc]

theorem urlCapture_ready {C : Str} (hC1 : C ≠ [])
    (hCh : ∀ c, C.head? = some c → jsWs c = false)
    (hCl : ∀ c ∈ C, isLineTerm c = false) :
    urlCapture (' ' :: C) = some C := by
  have hu : List.dropWhile jsWs (' ' :: C) = C := by
    rw [List.dropWhile_cons_of_pos (by decide)]
    exact dropWhile_eq_self_of_head hCh
  unfold urlCapture
  simp only [hu, isEmpty_false_of_ne hC1, Bool.false_eq_true, if_false,
    all_not_lineTerm hCl, if_true]

theorem arrowTail_arrow {C : Str} (hC1 : C ≠ [])
    (hCh : ∀ c, C.head? = some c → jsWs c = false)
    (hCl : ∀ c ∈ C, isLineTerm c = false) :
    arrowTail ('-' :: '>' :: ' ' :: C) = some C := by
  unfold arrowTail
  simp only [List.head?_cons, List.tail_cons]
  rw [if_pos (by decide)]
  exact urlCapture_ready hC1 hCh hCl

theorem redirectMatch_uri_plain {k C : Str} (hk1 : k ≠ [])
    (hk2 : ∀ c ∈ k, isKeyChar c = true) (hC1 : C ≠ [])
    (hCh : ∀ c, C.head? = some c → jsWs c = false)
    (hCl : ∀ c ∈ C, isLineTerm c = false) :
    redirectMatch (k ++ str " -> " ++ C) = some (k, none, C) := by
  have hs : k ++ str " -> " ++ C = k ++ (' ' :: '-' :: '>' :: ' ' :: C) := by
    simp [str]
  rw [hs]
  have htw : (k ++ (' ' :: '-' :: '>' :: ' ' :: C)).takeWhile isKeyChar = k :=
    takeWhile_key_stop hk2 (by decide)
  have hdrop : (k ++ (' ' :: '-' :: '>' :: ' ' :: C)).drop k.length =
      ' ' :: '-' :: '>' :: ' ' :: C := List.drop_left k _
  have ha1 : List.dropWhile jsWs (' ' :: '-' :: '>' :: ' ' :: C) =
      '-' :: '>' :: ' ' :: C := by
    rw [List.dropWhile_cons_of_pos (by decide), List.dropWhile_cons_of_neg (by decide)]
  unfold redirectMatch redirectPrimary
  simp only [htw, hdrop, isEmpty_false_of_ne hk1, Bool.false_eq_true, if_false, ha1,
    List.head?_cons]
  rw [if_neg (by decide)]
  rw [arrowTail_arrow hC1 hCh hCl]
  simp

theorem redirectMatch_uri_ph {k C : Str} (hk1 : k ≠ [])
    (hk2 : ∀ c ∈ k, isKeyChar c = true) (hC1 : C ≠ [])
    (hCh : ∀ c, C.head? = some c → jsWs c = false)
    (hCl : ∀ c ∈ C, isLineTerm c = false) :
    redirectMatch (k ++ str " [********] -> " ++ C) =
      some (k, some placeholderStr, C) := by
  have hs : k ++ str " [********] -> " ++ C =
      k ++ (' ' :: '[' :: (str "********] -> " ++ C)) := by
    simp [str]
  rw [hs]
  have htw : (k ++ (' ' :: '[' :: (str "********] -> " ++ C))).takeWhile isKeyChar = k :=
    takeWhile_key_stop hk2 (by decide)
  have hdrop : (k ++ (' ' :: '[' :: (str "********] -> " ++ C))).drop k.length =
      ' ' :: '[' :: (str "********] -> " ++ C) := List.drop_left k _
  have ha1 : List.dropWhile jsWs (' ' :: '[' :: (str "********] -> " ++ C)) =
      '[' :: (str "********] -> " ++ C) := by
    rw [List.dropWhile_cons_of_pos (by decide), List.dropWhile_cons_of_neg (by decide)]
  have hP : (str "********] -> " ++ C).takeWhile (fun c => c != ']') =
      placeholderStr := by
    have h8 : str "********] -> " ++ C =
        placeholderStr ++ (']' :: (str " -> " ++ C)) := by simp [str, placeholderStr]
    rw [h8, List.takeWhile_append_of_pos (by decide),
      List.takeWhile_cons_of_neg (by decide), List.append_nil]
  have hdropP : (str "********] -> " ++ C).drop placeholderStr.length =
      ']' :: (str " -> " ++ C) := by
    have h8 : str "********] -> " ++ C =
        placeholderStr ++ (']' :: (str " -> " ++ C)) := by simp [str, placeholderStr]
    rw [h8]
    exact List.drop_left placeholderStr _
  have harrow : List.dropWhile jsWs (str " -> " ++ C) = '-' :: '>' :: ' ' :: C := by
    have h4 : str " -> " ++ C = ' ' :: '-' :: '>' :: ' ' :: C := by simp [str]
    rw [h4, List.dropWhile_cons_of_pos (by decide),
      List.dropWhile_cons_of_neg (by decide)]
  unfold redirectMatch redirectPrimary
  simp only [htw, hdrop, isEmpty_false_of_ne hk1, Bool.false_eq_true, if_false, ha1,
    List.head?_cons, List.tail_cons]
  simp only [hP, hdropP, List.head?_cons, List.tail_cons, harrow]
  rw [arrowTail_arrow hC1 hCh hCl]
  simp [placeholderStr, str]

theorem noteMatch_uri_plain {k C : Str} (hk1 : k ≠ [])
    (hk2 : ∀ c ∈ k, isKeyChar c = true) :
    noteMatch (k ++ str " -> " ++ C) = none := by
  have hs : k ++ str " -> " ++ C = k ++ (' ' :: '-' :: '>' :: ' ' :: C) := by
    simp [str]
  rw [hs]
  have htw : (k ++ (' ' :: '-' :: '>' :: ' ' :: C)).takeWhile isKeyChar = k :=
    takeWhile_key_stop hk2 (by decide)
  have hdrop : (k ++ (' ' :: '-' :: '>' :: ' ' :: C)).drop k.length =
      ' ' :: '-' :: '>' :: ' ' :: C := List.drop_left k _
  have ha1 : List.dropWhile jsWs (' ' :: '-' :: '>' :: ' ' :: C) =
      '-' :: '>' :: ' ' :: C := by
    rw [List.dropWhile_cons_of_pos (by decide), List.dropWhile_cons_of_neg (by decide)]
  unfold noteMatch
  simp only [htw, hdrop, isEmpty_false_of_ne hk1, Bool.false_eq_true, if_false,
    List.isEmpty_cons, ha1, List.head?_cons]
  rw [if_neg (by decide), if_neg ?hne]
  case hne =>
    intro hcontra
    simp [str] at hcontra

theorem noteMatch_uri_ph {k C : Str} (hk1 : k ≠ [])
    (hk2 : ∀ c ∈ k, isKeyChar c = true) :
    noteMatch (k ++ str " [********] -> " ++ C) = none := by
  have hs : k ++ str " [********] -> " ++ C =
      k ++ (' ' :: '[' :: (str "********] -> " ++ C)) := by
    simp [str]
  rw [hs]
  have htw : (k ++ (' ' :: '[' :: (str "********] -> " ++ C))).takeWhile isKeyChar = k :=
    takeWhile_key_stop hk2 (by decide)
  have hdrop : (k ++ (' ' :: '[' :: (str "********] -> " ++ C))).drop k.length =
      ' ' :: '[' :: (str "********] -> " ++ C) := List.drop_left k _
  have ha1 : List.dropWhile jsWs (' ' :: '[' :: (str "********] -> " ++ C)) =
      '[' :: (str "********] -> " ++ C) := by
    rw [List.dropWhile_cons_of_pos (by decide), List.dropWhile_cons_of_neg (by decide)]
  have hP : (str "********] -> " ++ C).takeWhile (fun c => c != ']') =
      placeholderStr := by
    have h8 : str "********] -> " ++ C =
        placeholderStr ++ (']' :: (str " -> " ++ C)) := by simp [str, placeholderStr]
    rw [h8, List.takeWhile_append_of_pos (by decide),
      List.takeWhile_cons_of_neg (by decide), List.append_nil]
  have hdropP : (str "********] -> " ++ C).drop placeholderStr.length =
      ']' :: (str " -> " ++ C) := by
    have h8 : str "********] -> " ++ C =
        placeholderStr ++ (']' :: (str " -> " ++ C)) := by simp [str, placeholderStr]
    rw [h8]
    exact List.drop_left placeholderStr _
  have harrow : List.dropWhile jsWs (str " -> " ++ C) = '-' :: '>' :: ' ' :: C := by
    have h4 : str " -> " ++ C = ' ' :: '-' :: '>' :: ' ' :: C := by simp [str]
    rw [h4, List.dropWhile_cons_of_pos (by decide),
      List.dropWhile_cons_of_neg (by decide)]
  unfold noteMatch
  simp only [htw, hdrop, isEmpty_false_of_ne hk1, Bool.false_eq_true, if_false,
    List.isEmpty_cons, ha1, List.head?_cons, List.tail_cons]
  simp only [hP, hdropP, List.head?_cons, List.tail_cons, harrow]
  have hne : (('-' :: '>' :: ' ' :: C) = str "---") = False := by simp [str]
  simp [hne, placeholderStr]

/-! ## Stepping the parser over one valid construct -/

theorem takeWhile_ne_nil_head {p : Char → Bool} {s : Str}
    (h : (s.takeWhile p).isEmpty = false) : ∃ c t, s = c :: t ∧ p c = true := by
  cases s with
  | nil => simp [List.takeWhile] at h
  | cons c t =>
    by_cases hp : p c
    · exact ⟨c, t, rfl, hp⟩
    · rw [List.takeWhile_cons_of_neg hp] at h
      simp at h

theorem noteMatch_some_run {s : Str} {x : Str × Option Str}
    (h : noteMatch s = some x) : (s.takeWhile isKeyChar).isEmpty = false := by
  by_contra hc
  simp only [Bool.not_eq_false] at hc
  unfold noteMatch at h
  rw [if_pos hc] at h
  exact Option.noConfusion h

theorem redirectMatch_some_run {s : Str} {x : Str × Option Str × Str}
    (h : redirectMatch s = some x) : (s.takeWhile isKeyChar).isEmpty = false := by
  by_contra hc
  simp only [Bool.not_eq_false] at hc
  unfold redirectMatch at h
  rw [if_pos hc] at h
  exact Option.noConfusion h

/-- A line that is skipped (blank or comment) just advances the loop. -/
theorem parseLoop_skip {l : Str} (h : trimS l = [] ∨ (trimS l).head? = some '#')
    (t : List Str) (i : Nat) : parseLoop (l :: t) i = parseLoop t (i + 1) := by
  rw [parseLoop_cons]
  unfold parseStep
  by_cases he : (trimS l).isEmpty
  · simp [he]
  · rcases h with h | h
    · rw [h] at he
      simp at he
    · simp [he, h]

/-- A matched redirect line contributes its entry and advances by one. -/
theorem parseLoop_redirect {l k url : Str} {pw : Option Str}
    (hn : noteMatch (trimS l) = none)
    (hr : redirectMatch (trimS l) = some (k, pw, url)) (t : List Str) (i : Nat) :
    parseLoop (l :: t) i =
      ⟨⟨k, ⟨RecType.uri, trimS url, none, none, none⟩, pw⟩ ::
         (parseLoop t (i + 1)).entries,
       (parseLoop t (i + 1)).errors⟩ := by
  obtain ⟨c, t', hct, hkc⟩ := takeWhile_ne_nil_head (redirectMatch_some_run hr)
  rw [parseLoop_cons]
  unfold parseStep
  rw [if_neg (by rw [hct]; simp)]
  rw [if_neg (by rw [hct]; simp; exact fun hh => keyChar_ne_hash hkc hh)]
  rw [hn, hr]

/-- An unrecognized line contributes one error and advances by one. -/
theorem parseLoop_unrecognized {l : Str} (h1 : trimS l ≠ [])
    (h2 : (trimS l).head? ≠ some '#') (hn : noteMatch (trimS l) = none)
    (hr : redirectMatch (trimS l) = none) (t : List Str) (i : Nat) :
    parseLoop (l :: t) i =
      ⟨(parseLoop t (i + 1)).entries,
       ParseErr.unrecognized (i + 1) (trimS l) :: (parseLoop t (i + 1)).errors⟩ := by
  rw [parseLoop_cons]
  unfold parseStep
  rw [if_neg (by simpa using h1), if_neg h2, hn, hr]

/-- A complete note block contributes its entry and advances past the
closing `---`. -/
theorem parseLoop_note {h k cl : Str} {pw : Option Str} {c : List Str}
    (hm : noteMatch (trimS h) = some (k, pw))
    (hc : ∀ x ∈ c, trimS x ≠ str "---") (hcl : trimS cl = str "---")
    (rest : List Str) (i : Nat) :
    parseLoop (h :: (c ++ cl :: rest)) i =
      ⟨⟨k, ⟨RecType.note, joinLines c, none, none, none⟩, pw⟩ ::
         (parseLoop rest (i + 1 + c.length + 1)).entries,
       (parseLoop rest (i + 1 + c.length + 1)).errors⟩ := by
  obtain ⟨ch, t', hct, hkc⟩ := takeWhile_ne_nil_head (noteMatch_some_run hm)
  have hpred : ∀ x ∈ c, (trimS x != str "---") = true := by
    intro x hx
    simpa using hc x hx
  have hclpred : (trimS cl != str "---") = false := by
    simp [hcl]
  have hdw : (c ++ cl :: rest).dropWhile (fun x => trimS x != str "---") =
      cl :: rest := by
    rw [List.dropWhile_append_of_pos hpred, List.dropWhile_cons_of_neg (by simp [hclpred])]
  have htk : (c ++ cl :: rest).takeWhile (fun x => trimS x != str "---") = c := by
    rw [List.takeWhile_append_of_pos hpred,
      List.takeWhile_cons_of_neg (by simp [hclpred]), List.append_nil]
  rw [parseLoop_cons]
  unfold parseStep
  rw [if_neg (by rw [hct]; simp)]
  rw [if_neg (by rw [hct]; simp; exact fun hh => keyChar_ne_hash hkc hh)]
  rw [hm]
  simp only [hdw, htk]

/-- An unterminated note block yields exactly the unclosed error and
aborts the loop. -/
theorem parseLoop_note_unterminated {h k : Str} {pw : Option Str} {tail : List Str}
    (hm : noteMatch (trimS h) = some (k, pw))
    (ht : ∀ x ∈ tail, trimS x ≠ str "---") (i : Nat) :
    parseLoop (h :: tail) i = ⟨[], [ParseErr.unclosed k (i + 1)]⟩ := by
  obtain ⟨ch, t', hct, hkc⟩ := takeWhile_ne_nil_head (noteMatch_some_run hm)
  have hdw : tail.dropWhile (fun x => trimS x != str "---") = [] := by
    rw [List.dropWhile_eq_nil_iff]
    intro x hx
    simpa using ht x hx
  rw [parseLoop_cons]
  unfold parseStep
  rw [if_neg (by rw [hct]; simp)]
  rw [if_neg (by rw [hct]; simp; exact fun hh => keyChar_ne_hash hkc hh)]
  rw [hm]
  simp only [hdw]

/-- Chunked parsing: a prefix made of valid items parses to its entries,
no errors, and hands the loop to the remaining lines at the right
index. -/
theorem parseLoop_items :
    ∀ (items : List Item), (∀ it ∈ items, itemOk it) →
      ∀ (rest : List Str) (i : Nat),
        parseLoop (docLines items ++ rest) i =
          ⟨docEntries items ++ (parseLoop rest (i + (docLines items).length)).entries,
           (parseLoop rest (i + (docLines items).length)).errors⟩
  | [], _, rest, i => by simp [docLines, docEntries]
  | Item.plain l :: items, hok, rest, i => by
    have hl := hok (Item.plain l) (by simp)
    have hrec := parseLoop_items items (fun it hit => hok it (by simp [hit])) rest (i + 1)
    simp only [docLines, docEntries] at hrec ⊢
    simp only [List.flatMap_cons, itemLines, itemEntries,
      List.cons_append, List.nil_append, List.singleton_append]
    rw [parseLoop_skip hl, hrec]
    have hidx : i + ((items.flatMap itemLines).length + 1) =
        i + 1 + (items.flatMap itemLines).length := by omega
    simp only [List.length_cons, hidx]
  | Item.redirect l :: items, hok, rest, i => by
    have hl := hok (Item.redirect l) (by simp)
    obtain ⟨hnone, hsome⟩ := hl
    obtain ⟨⟨k, pw, url⟩, hr⟩ := Option.isSome_iff_exists.mp hsome
    have hrec := parseLoop_items items (fun it hit => hok it (by simp [hit])) rest (i + 1)
    simp only [docLines, docEntries] at hrec ⊢
    simp only [List.flatMap_cons, itemLines, itemEntries,
      List.cons_append, List.singleton_append, List.nil_append, hr]
    rw [parseLoop_redirect hnone hr, hrec]
    have hidx : i + ((items.flatMap itemLines).length + 1) =
        i + 1 + (items.flatMap itemLines).length := by omega
    simp only [List.length_cons, hidx]
  | Item.noteBlock h c cl :: items, hok, rest, i => by
    have hl := hok (Item.noteBlock h c cl) (by simp)
    obtain ⟨hsome, hc, hcl⟩ := hl
    obtain ⟨⟨k, pw⟩, hm⟩ := Option.isSome_iff_exists.mp hsome
    have hrec := parseLoop_items items (fun it hit => hok it (by simp [hit])) rest
      (i + 1 + c.length + 1)
    simp only [docLines, docEntries] at hrec ⊢
    simp only [List.flatMap_cons, itemLines, itemEntries,
      List.cons_append, List.nil_append, hm]
    simp only [List.append_assoc, List.singleton_append, List.cons_append,
      List.nil_append]
    rw [parseLoop_note hm hc hcl (items.flatMap itemLines ++ rest) i, hrec]
    have hidx : i + (c ++ cl :: items.flatMap itemLines).length.succ =
        i + 1 + c.length + 1 + (items.flatMap itemLines).length := by
      simp only [List.length_append, List.length_cons]
      omega
    simp only [List.length_cons, Nat.succ_eq_add_one] at hidx ⊢
    simp only [hidx]

theorem splitLines_joinLines_id {ls : List Str} (hnl : ∀ l ∈ ls, nlFree l)
    (hne : ls ≠ []) : splitLines (joinLines ls) = ls := by
  rw [splitLines_joinLines_flat ls hne]
  induction ls with
  | nil => rfl
  | cons l t ih =>
    rw [List.flatMap_cons, splitLines_no_nl (hnl l (by simp))]
    by_cases ht : t = []
    · simp [ht]
    · rw [ih (fun x hx => hnl x (by simp [hx])) ht]
      rfl

theorem parseLoop_nil (i : Nat) : parseLoop [] i = ⟨[], []⟩ := rfl

/-- **C5.**  Parser error tolerance: a bulk document consisting of valid
constructs (blank/comment lines, redirect lines, complete note blocks)
with exactly one unrecognizable line among them reports exactly one parse
error, carrying that line's 1-based number and its trimmed text, produces
no entry for that line, and still yields the entries of every valid
construct before and after it. -/
theorem parse_single_malformed_line_tolerant
    (items1 items2 : List Item) (m : Str)
    (h1 : ∀ it ∈ items1, itemOk it) (h2 : ∀ it ∈ items2, itemOk it)
    (hm : malformedLine m)
    (hnl : ∀ l ∈ docLines items1 ++ m :: docLines items2, nlFree l) :
    parseBulkFormat (joinLines (docLines items1 ++ m :: docLines items2)) =
      ⟨docEntries items1 ++ docEntries items2,
       [ParseErr.unrecognized ((docLines items1).length + 1) (trimS m)]⟩ := by
  obtain ⟨hm1, hm2, hm3, hm4⟩ := hm
  unfold parseBulkFormat
  rw [splitLines_joinLines_id hnl (by simp)]
  rw [parseLoop_items items1 h1 (m :: docLines items2) 0]
  simp only [Nat.zero_add]
  rw [parseLoop_unrecognized hm1 hm2 hm3 hm4 (docLines items2)
    ((docLines items1).length)]
  rw [show docLines items2 = docLines items2 ++ [] by simp]
  rw [parseLoop_items items2 h2 [] ((docLines items1).length + 1)]
  rw [parseLoop_nil]
  simp [Nat.zero_add]

/-- **C6.**  Unterminated note block: when a note-header line is never
followed by a closing `---`, the block yields no entry and exactly one
`unclosed` error naming the block's key and the header's 1-based line
number; any valid constructs before the block still yield their
entries. -/
theorem parse_unterminated_note_block
    (items : List Item) (hdr : Str) (k : Str) (pw : Option Str) (tail : List Str)
    (hok : ∀ it ∈ items, itemOk it)
    (hhdr : noteMatch (trimS hdr) = some (k, pw))
    (htail : ∀ x ∈ tail, trimS x ≠ str "---")
    (hnl : ∀ l ∈ docLines items ++ hdr :: tail, nlFree l) :
    parseBulkFormat (joinLines (docLines items ++ hdr :: tail)) =
      ⟨docEntries items, [ParseErr.unclosed k ((docLines items).length + 1)]⟩ := by
  unfold parseBulkFormat
  rw [splitLines_joinLines_id hnl (by simp)]
  rw [parseLoop_items items hok (hdr :: tail) 0]
  simp only [Nat.zero_add]
  rw [parseLoop_note_unterminated hhdr htail ((docLines items).length)]
  simp [Nat.zero_add]

/-- Witness for C5 at a concrete three-line document. -/
theorem parse_single_malformed_line_tolerant_witness :
    parseBulkFormat (str "a -> https://a.com\n???\nb ---\nhi\n---") =
      ⟨[⟨str "a", ⟨RecType.uri, str "https://a.com", none, none, none⟩, none⟩,
        ⟨str "b", ⟨RecType.note, str "hi", none, none, none⟩, none⟩],
       [ParseErr.unrecognized 2 (str "???")]⟩ := by
  have h := parse_single_malformed_line_tolerant
    [Item.redirect (str "a -> https://a.com")]
    [Item.noteBlock (str "b ---") [str "hi"] (str "---")]
    (str "???")
    (by intro it hit; simp at hit; subst hit; constructor <;> decide)
    (by intro it hit; simp at hit; subst hit
        refine ⟨by decide, ?_, by decide⟩
        intro x hx; simp at hx; subst hx; decide)
    (by refine ⟨by decide, by decide, by decide, by decide⟩)
    (by intro l hl; simp [docLines, itemLines] at hl
        rcases hl with h | h | h | h | h <;> subst h <;>
          (intro c hc hceq; subst hceq; revert hc; decide))
  have hjoin : joinLines (docLines [Item.redirect (str "a -> https://a.com")] ++
      str "???" :: docLines [Item.noteBlock (str "b ---") [str "hi"] (str "---")]) =
      str "a -> https://a.com\n???\nb ---\nhi\n---" := by decide
  rw [hjoin] at h
  rw [h]
  decide

/-- Witness for C6 at the spec's concrete input `"foo ---\nhello"`. -/
theorem parse_unterminated_note_block_witness :
    parseBulkFormat (str "foo ---\nhello") =
      ⟨[], [ParseErr.unclosed (str "foo") 1]⟩ := by
  have h := parse_unterminated_note_block [] (str "foo ---") (str "foo") none
    [str "hello"]
    (by intro it hit; simp at hit)
    (by decide)
    (by intro x hx; simp at hx; subst hx; decide)
    (by intro l hl; simp [docLines] at hl
        rcases hl with h | h <;> subst h <;>
          (intro c hc hceq; subst hceq; revert hc; decide))
  have hjoin : joinLines (docLines [] ++ str "foo ---" :: [str "hello"]) =
      str "foo ---\nhello" := by decide
  rw [hjoin] at h
  rw [h]
  decide

/-! ## Keys produced by the matchers -/

theorem noteMatch_key {s k : Str} {pw : Option Str}
    (h : noteMatch s = some (k, pw)) :
    k ≠ [] ∧ ∀ c ∈ k, isKeyChar c = true := by
  have hkey : ∀ c ∈ s.takeWhile isKeyChar, isKeyChar c = true :=
    fun c hc => List.mem_takeWhile_imp hc
  unfold noteMatch at h
  by_cases h1 : (s.takeWhile isKeyChar).isEmpty
  · rw [if_pos h1] at h
    exact Option.noConfusion h
  · rw [if_neg h1] at h
    have hR : s.takeWhile isKeyChar ≠ [] := by
      intro hcontra
      rw [hcontra] at h1
      exact h1 rfl
    by_cases h2 : (s.drop (s.takeWhile isKeyChar).length).isEmpty
    · rw [if_pos h2] at h
      by_cases h3 : (decide (3 < (s.takeWhile isKeyChar).length) &&
          decide ((s.takeWhile isKeyChar).drop
            ((s.takeWhile isKeyChar).length - 3) = str "---")) = true
      · rw [if_pos h3] at h
        simp only [Option.some.injEq, Prod.mk.injEq] at h
        obtain ⟨hk, _⟩ := h
        subst hk
        simp only [Bool.and_eq_true, decide_eq_true_eq] at h3
        constructor
        · intro hcontra
          have := congrArg List.length hcontra
          simp only [List.length_take, List.length_nil] at this
          omega
        · intro c hc
          exact hkey c ((List.take_sublist _ _).mem hc)
      · rw [if_neg h3] at h
        exact Option.noConfusion h
    · rw [if_neg h2] at h
      by_cases h4 : ((s.drop (s.takeWhile isKeyChar).length).dropWhile jsWs).head? =
          some '['
      · rw [if_pos h4] at h
        by_cases h5 : ((((s.drop (s.takeWhile isKeyChar).length).dropWhile
            jsWs).tail.drop
            ((((s.drop (s.takeWhile isKeyChar).length).dropWhile
              jsWs).tail.takeWhile (fun c => c != ']')).length)).head?) = some ']'
        · rw [if_pos h5] at h
          split at h
          · simp only [Option.some.injEq, Prod.mk.injEq] at h
            obtain ⟨hk, _⟩ := h
            subst hk
            exact ⟨hR, hkey⟩
          · exact Option.noConfusion h
        · rw [if_neg h5] at h
          exact Option.noConfusion h
      · rw [if_neg h4] at h
        split at h
        · simp only [Option.some.injEq, Prod.mk.injEq] at h
          obtain ⟨hk, _⟩ := h
          subst hk
          exact ⟨hR, hkey⟩
        · exact Option.noConfusion h

theorem redirectPrimary_key {R rest : Str} {x : Str × Option Str × Str}
    (h : redirectPrimary R rest = some x) : x.1 = R := by
  unfold redirectPrimary at h
  simp only [] at h
  split at h
  · split at h
    · split at h
      · simp only [Option.map_eq_some'] at h
        obtain ⟨u, _, hx⟩ := h
        rw [← hx]
      · exact Option.noConfusion h
    · exact Option.noConfusion h
  · simp only [Option.map_eq_some'] at h
    obtain ⟨u, _, hx⟩ := h
    rw [← hx]

theorem redirectMatch_key {s k : Str} {pw : Option Str} {url : Str}
    (h : redirectMatch s = some (k, pw, url)) :
    k ≠ [] ∧ ∀ c ∈ k, isKeyChar c = true := by
  have hkey : ∀ c ∈ s.takeWhile isKeyChar, isKeyChar c = true :=
    fun c hc => List.mem_takeWhile_imp hc
  unfold redirectMatch at h
  by_cases h1 : (s.takeWhile isKeyChar).isEmpty
  · rw [if_pos h1] at h
    exact Option.noConfusion h
  · rw [if_neg h1] at h
    have hR : s.takeWhile isKeyChar ≠ [] := by
      intro hcontra
      rw [hcontra] at h1
      exact h1 rfl
    cases hp : redirectPrimary (s.takeWhile isKeyChar)
        (s.drop (s.takeWhile isKeyChar).length) with
    | some r =>
      rw [hp] at h
      simp only [Option.some.injEq] at h
      subst h
      have hk := redirectPrimary_key hp
      simp only at hk
      rw [hk]
      exact ⟨hR, hkey⟩
    | none =>
      rw [hp] at h
      simp only at h
      split at h
      · split at h
        · simp only [Option.map_eq_some'] at h
          obtain ⟨u, _, hx⟩ := h
          have hk : k = (s.takeWhile isKeyChar).take
              ((s.takeWhile isKeyChar).length - 1) := by
            have := congrArg Prod.fst hx
            simpa using this.symm
          next h7 _ =>
            simp only [Bool.and_eq_true, decide_eq_true_eq] at h7
            subst hk
            constructor
            · intro hcontra
              have := congrArg List.length hcontra
              simp only [List.length_take, List.length_nil] at this
              omega
            · intro c hc
              exact hkey c ((List.take_sublist _ _).mem hc)
        · exact Option.noConfusion h
      · exact Option.noConfusion h

/-- Every entry key the loop ever produces comes from a matcher, hence is
a nonempty string over the key character class. -/
theorem parseLoop_keys :
    ∀ (lines : List Str) (i : Nat) (e : ParsedEntry),
      e ∈ (parseLoop lines i).entries →
        e.key ≠ [] ∧ ∀ c ∈ e.key, isKeyChar c = true
  | [], i, e, he => by simp [parseLoop, parseLoopF] at he
  | l :: t, i, e, he => by
    rw [parseLoop_cons] at he
    unfold parseStep at he
    by_cases h1 : (trimS l).isEmpty
    · rw [if_pos h1] at he
      exact parseLoop_keys t (i + 1) e he
    · rw [if_neg h1] at he
      by_cases h2 : (trimS l).head? = some '#'
      · rw [if_pos h2] at he
        exact parseLoop_keys t (i + 1) e he
      · rw [if_neg h2] at he
        cases hnm : noteMatch (trimS l) with
        | some kp =>
          rw [hnm] at he
          cases hdw : t.dropWhile (fun x => trimS x != str "---") with
          | nil =>
            rw [hdw] at he
            simp at he
          | cons x rest =>
            rw [hdw] at he
            simp only [List.mem_cons] at he
            rcases he with he | he
            · subst he
              exact noteMatch_key
                (show noteMatch (trimS l) = some (kp.1, kp.2) by rw [hnm])
            · exact parseLoop_keys rest _ e he
        | none =>
          rw [hnm] at he
          cases hrm : redirectMatch (trimS l) with
          | some kpu =>
            rw [hrm] at he
            simp only [List.mem_cons] at he
            rcases he with he | he
            · subst he
              exact redirectMatch_key
                (show redirectMatch (trimS l) = some (kpu.1, kpu.2.1, kpu.2.2) by
                  rw [hrm])
            · exact parseLoop_keys t (i + 1) e he
          | none =>
            rw [hrm] at he
            exact parseLoop_keys t (i + 1) e he
termination_by lines _ _ _ => lines.length
decreasing_by
  all_goals simp_wf
  all_goals try omega
  all_goals
    have hdwl := length_dropWhile_tail_le hdw
    omega

/-- **C9.**  Every entry produced by `parseBulkFormat` has a key that is a
nonempty string over `[A-Za-z0-9_-]`; consequently the downstream
`isValidKey` check can only fail on the length bound, never on an illegal
character. -/
theorem parse_entry_keys_legal (text : Str) :
    ∀ e ∈ (parseBulkFormat text).entries,
      e.key ≠ [] ∧ (∀ c ∈ e.key, isKeyChar c = true) ∧
        (e.key.length ≤ 100 → isValidKeyB e.key = true) := by
  intro e he
  obtain ⟨h1, h2⟩ := parseLoop_keys (splitLines text) 0 e he
  refine ⟨h1, h2, fun hlen => ?_⟩
  unfold isValidKeyB
  simp only [Bool.and_eq_true, List.all_eq_true, Bool.not_eq_eq_eq_not,
    Bool.not_true, decide_eq_true_eq]
  exact ⟨⟨fun c hc => h2 c hc, isEmpty_false_of_ne h1⟩, hlen⟩

/-- Witness for C9 on a concrete mixed document. -/
theorem parse_entry_keys_legal_witness :
    (∀ e ∈ (parseBulkFormat (str "ab-c_9 -> https://a.com\nzz ---\nbody\n---")).entries,
      e.key ≠ [] ∧ (∀ c ∈ e.key, isKeyChar c = true) ∧
        (e.key.length ≤ 100 → isValidKeyB e.key = true)) ∧
    (parseBulkFormat (str "ab-c_9 -> https://a.com\nzz ---\nbody\n---")).entries.map
      (fun e => e.key) = [str "ab-c_9", str "zz"] :=
  ⟨parse_entry_keys_legal (str "ab-c_9 -> https://a.com\nzz ---\nbody\n---"),
   by decide⟩

/-! ## Claims about the store facade and password verification -/

/-- **C7.**  `saveRecord` persists the incoming record with `updatedAt`
always overwritten by the current time, `createdAt` kept when the incoming
record carries one (present in the JS sense, i.e. a truthy nonempty
string) and stamped with the current time only when absent, and `type`,
`content`, `passwordHash` exactly as they came in. -/
theorem saveRecord_stamps_only_timestamps (record : StoredRecord) (now : Str) :
    (saveRecordStamp record now).updatedAt = some now ∧
    (saveRecordStamp record now).type = record.type ∧
    (saveRecordStamp record now).content = record.content ∧
    (saveRecordStamp record now).passwordHash = record.passwordHash ∧
    (∀ s, record.createdAt = some s → s ≠ [] →
      (saveRecordStamp record now).createdAt = some s) ∧
    (record.createdAt = none → (saveRecordStamp record now).createdAt = some now) := by
  refine ⟨rfl, rfl, rfl, rfl, fun s hs hne => ?_, fun hnone => ?_⟩
  · simp [saveRecordStamp, jsOrStr, hs, isEmpty_false_of_ne hne]
  · simp [saveRecordStamp, jsOrStr, hnone]

/-- Witness for C7: a first save stamps `createdAt := now`, a re-save of a
record carrying `createdAt` keeps it. -/
theorem saveRecord_stamps_only_timestamps_witness :
    (saveRecordStamp ⟨RecType.uri, str "https://a.com", some (str "h"),
        some (str "2024-01-01"), none⟩ (str "2025-01-01")).createdAt =
      some (str "2024-01-01") ∧
    (saveRecordStamp ⟨RecType.uri, str "https://a.com", some (str "h"),
        some (str "2024-01-01"), none⟩ (str "2025-01-01")).updatedAt =
      some (str "2025-01-01") ∧
    (saveRecordStamp ⟨RecType.note, str "x", none, none, none⟩
        (str "2025-01-01")).createdAt = some (str "2025-01-01") := by
  refine ⟨?_, ?_, ?_⟩
  · exact (saveRecord_stamps_only_timestamps
      ⟨RecType.uri, str "https://a.com", some (str "h"), some (str "2024-01-01"), none⟩
      (str "2025-01-01")).2.2.2.2.1 (str "2024-01-01") rfl (by decide)
  · exact (saveRecord_stamps_only_timestamps
      ⟨RecType.uri, str "https://a.com", some (str "h"), some (str "2024-01-01"), none⟩
      (str "2025-01-01")).1
  · exact (saveRecord_stamps_only_timestamps
      ⟨RecType.note, str "x", none, none, none⟩ (str "2025-01-01")).2.2.2.2.2 rfl

/-- **C10.**  When the key-value store holds an unparseable value for a
key, `getRecord` returns `none` — the same observable result as for an
absent key — instead of propagating the `JSON.parse` exception. -/
theorem getRecord_corrupt_eq_missing (decode : Str → Option StoredRecord)
    (kv : Str → Option Str) (key data : Str)
    (hkv : kv key = some data) (hbad : decode data = none) :
    getRecordM decode kv key = none ∧
    getRecordM decode (fun x => if x = key then none else kv x) key = none := by
  constructor
  · unfold getRecordM
    rw [hkv]
    by_cases hd : data.isEmpty
    · simp [hd]
    · simp [hd, hbad]
  · unfold getRecordM
    simp

/-- Witness for C10 with a decoder rejecting the stored blob. -/
theorem getRecord_corrupt_eq_missing_witness :
    getRecordM (fun _ => none)
      (fun x => if x = str "k" then some (str "not json") else none) (str "k") =
      none ∧
    getRecordM (fun _ => none)
      (fun x => if x = str "k" then none else
        if x = str "k" then some (str "not json") else none) (str "k") = none := by
  have h := getRecord_corrupt_eq_missing (fun _ => none)
    (fun x => if x = str "k" then some (str "not json") else none)
    (str "k") (str "not json") (by decide) rfl
  exact h

/-- **C8.**  `verifyPassword` catches every decoding failure: for any
candidate password and any stored token that `atob` rejects, or that
decodes to fewer than 48 bytes (16-byte salt plus 32-byte derived key, the
derivation always yielding 32 bytes), it returns `false` — the surrounding
try/catch means no exception escapes. -/
theorem verifyPassword_malformed_false (atobF : Str → Option (List Nat))
    (pbkdf2 : Str → List Nat → List Nat) (password storedHash : Str)
    (hlen : ∀ p s, (pbkdf2 p s).length = 32)
    (hbad : atobF storedHash = none ∨
      ∃ combined, atobF storedHash = some combined ∧ combined.length < 48) :
    verifyPasswordM atobF pbkdf2 password storedHash = false := by
  unfold verifyPasswordM
  rcases hbad with hbad | ⟨combined, hc, hlt⟩
  · rw [hbad]
  · rw [hc]
    have h32 : (pbkdf2 password (combined.take 16)).length = 32 := hlen _ _
    have hdrop : (combined.drop 16).length < 32 := by
      simp only [List.length_drop]
      omega
    show (if (pbkdf2 password (combined.take 16)).length ≠ (combined.drop 16).length
        then false
        else decide ((((pbkdf2 password (combined.take 16)).zip
          (combined.drop 16)).foldl (fun acc p => acc ||| (p.1 ^^^ p.2)) 0) = 0)) =
      false
    rw [if_pos (show (pbkdf2 password (combined.take 16)).length ≠
      (combined.drop 16).length by omega)]

/-- Witness for C8: a one-character token (invalid base64) and an empty
token (decodes to zero bytes) both verify to `false`. -/
theorem verifyPassword_malformed_false_witness :
    verifyPasswordM (fun t => if t = str "x" then none else some [])
      (fun _ _ => List.replicate 32 0) (str "pw") (str "x") = false ∧
    verifyPasswordM (fun t => if t = str "x" then none else some [])
      (fun _ _ => List.replicate 32 0) (str "pw") (str "") = false := by
  constructor
  · exact verifyPassword_malformed_false _ _ _ _
      (fun p s => List.length_replicate 32 0)
      (Or.inl (by decide))
  · exact verifyPassword_malformed_false _ _ _ _
      (fun p s => List.length_replicate 32 0)
      (Or.inr ⟨[], by decide, by decide⟩)

/-! ## Rate-limit state machine lemmas -/

theorem recordAttempt_fresh {m : RLMap} {ip key : Str}
    (h : m (rateLimitKey ip key) = none) (t : Nat) :
    (recordUnlockAttempt m t ip key) (rateLimitKey ip key) =
      some ⟨1, t + UNLOCK_WINDOW⟩ := by
  unfold recordUnlockAttempt
  rw [h]
  unfold rlPut
  simp

theorem recordAttempt_within {m : RLMap} {ip key : Str} {n r t : Nat}
    (h : m (rateLimitKey ip key) = some ⟨n, r⟩) (ht : t ≤ r) :
    (recordUnlockAttempt m t ip key) (rateLimitKey ip key) = some ⟨n + 1, r⟩ := by
  unfold recordUnlockAttempt
  rw [h]
  have hno : ¬ (r < t) := by omega
  simp only [hno, if_false]
  unfold rlPut
  simp

theorem fold_attempts {ip key : Str} :
    ∀ (ts : List Nat) (m : RLMap) (n r : Nat),
      m (rateLimitKey ip key) = some ⟨n, r⟩ → (∀ t ∈ ts, t ≤ r) →
      (ts.foldl (fun acc s => recordUnlockAttempt acc s ip key) m)
        (rateLimitKey ip key) = some ⟨n + ts.length, r⟩
  | [], m, n, r, h, _ => by simpa using h
  | t :: ts, m, n, r, h, hts => by
    rw [List.foldl_cons]
    have hstep := recordAttempt_within h (hts t (by simp))
    have := fold_attempts ts (recordUnlockAttempt m t ip key) (n + 1) r hstep
      (fun x hx => hts x (by simp [hx]))
    rw [this]
    simp only [List.length_cons]
    congr 2
    omega

theorem check_limited {m : RLMap} {ip key : Str} {n r t : Nat}
    (h : m (rateLimitKey ip key) = some ⟨n, r⟩) (hn : MAX_UNLOCK_ATTEMPTS ≤ n)
    (ht : t ≤ r) :
    checkUnlockRateLimit m t ip key =
      (⟨false, some (ceilSeconds (r - t))⟩, m) := by
  unfold checkUnlockRateLimit
  have hno : ¬ (r < t) := by omega
  simp [h, hno, hn]

theorem check_clear {m : RLMap} {ip key : Str} (t : Nat)
    (h : m (rateLimitKey ip key) = none) :
    checkUnlockRateLimit m t ip key = (⟨true, none⟩, m) := by
  unfold checkUnlockRateLimit
  simp [h]

theorem handleUnlock_limited {m : RLMap} {ip key : Str} {n r t : Nat}
    (record : Option StoredRecord) (password : Option Str) (verify : Bool)
    (h : m (rateLimitKey ip key) = some ⟨n, r⟩) (hn : MAX_UNLOCK_ATTEMPTS ≤ n)
    (ht : t ≤ r) :
    handleUnlock m t ip key record password verify =
      (UnlockOutcome.rateLimited (some (ceilSeconds (r - t))), m) := by
  unfold handleUnlock
  rw [check_limited h hn ht]
  simp

theorem handleUnlock_clear_not_limited {m : RLMap} {ip key : Str} (t : Nat)
    (record : Option StoredRecord) (password : Option Str) (verify : Bool)
    (h : m (rateLimitKey ip key) = none) :
    ∀ ra, (handleUnlock m t ip key record password verify).1 ≠
      UnlockOutcome.rateLimited ra := by
  intro ra
  unfold handleUnlock
  rw [check_clear t h]
  cases record with
  | none => simp
  | some r =>
    by_cases hph : jsTruthyOpt r.passwordHash
    · simp only [hph, Bool.not_true, Bool.false_eq_true, if_false]
      cases password with
      | none => simp
      | some p =>
        by_cases hp : p.isEmpty
        · simp [hp]
        · cases verify with
          | false => simp [hp]
          | true => simp [hp]
    · simp [hph]

theorem handleUnlock_unlocked_clears {m : RLMap} {now : Nat} {ip key : Str}
    {record : Option StoredRecord} {password : Option Str} {verify : Bool}
    {m2 : RLMap}
    (h : handleUnlock m now ip key record password verify =
      (UnlockOutcome.unlocked, m2)) :
    m2 (rateLimitKey ip key) = none := by
  unfold handleUnlock at h
  cases hchk : checkUnlockRateLimit m now ip key with
  | mk chk m1 =>
    rw [hchk] at h
    by_cases hallow : chk.allowed
    · simp only [hallow, Bool.not_true, Bool.false_eq_true, if_false] at h
      cases record with
      | none => simp at h
      | some r =>
        by_cases hph : jsTruthyOpt r.passwordHash
        · simp only [hph, Bool.not_true, Bool.false_eq_true, if_false] at h
          cases password with
          | none => simp at h
          | some p =>
            by_cases hp : p.isEmpty
            · simp [hp] at h
            · cases verify with
              | false => simp [hp] at h
              | true =>
                simp only [hp, Bool.false_eq_true, if_false, Bool.not_true] at h
                have hm2 : m2 = clearUnlockRateLimit m1 ip key := by
                  have := congrArg Prod.snd h
                  simpa using this.symm
                rw [hm2]
                unfold clearUnlockRateLimit rlDel
                simp
        · simp [hph] at h
    · simp [hallow] at h

/-- **C4.**  The unlock rate-limit state machine: (1) starting from a
clear (client, key) pair, after exactly `MAX_UNLOCK_ATTEMPTS` failed
attempts recorded inside the window opened by the first failure, the next
`handleUnlock` for that pair — still inside the window — is rejected as
rate-limited with a retry-after value, regardless of the record, the
posted password, or its correctness; and (2) a successful verification
deletes the pair's counter, so no subsequent attempt for that pair can be
rate-limited (until new failures accumulate). -/
theorem unlock_rate_limit_state_machine :
    (∀ (m : RLMap) (ip key : Str) (t1 : Nat) (ts : List Nat) (t : Nat)
        (record : Option StoredRecord) (password : Option Str) (verify : Bool),
      m (rateLimitKey ip key) = none →
      ts.length = MAX_UNLOCK_ATTEMPTS - 1 →
      (∀ s ∈ ts, s ≤ t1 + UNLOCK_WINDOW) →
      t ≤ t1 + UNLOCK_WINDOW →
      (handleUnlock
        (ts.foldl (fun acc s => recordUnlockAttempt acc s ip key)
          (recordUnlockAttempt m t1 ip key)) t ip key record password verify).1 =
        UnlockOutcome.rateLimited (some (ceilSeconds (t1 + UNLOCK_WINDOW - t)))) ∧
    (∀ (m : RLMap) (now : Nat) (ip key : Str) (record : Option StoredRecord)
        (password : Option Str) (verify : Bool) (m2 : RLMap),
      handleUnlock m now ip key record password verify =
        (UnlockOutcome.unlocked, m2) →
      m2 (rateLimitKey ip key) = none ∧
      ∀ (t2 : Nat) (rec2 : Option StoredRecord) (pw2 : Option Str) (v2 : Bool)
          (ra : Option Nat),
        (handleUnlock m2 t2 ip key rec2 pw2 v2).1 ≠ UnlockOutcome.rateLimited ra) := by
  constructor
  · intro m ip key t1 ts t record password verify hclear hlen hts ht
    have hfold := fold_attempts ts (recordUnlockAttempt m t1 ip key) 1
      (t1 + UNLOCK_WINDOW) (recordAttempt_fresh hclear t1) hts
    have hmax : MAX_UNLOCK_ATTEMPTS ≤ 1 + ts.length := by
      rw [hlen]
      unfold MAX_UNLOCK_ATTEMPTS
      omega
    rw [handleUnlock_limited record password verify hfold hmax ht]
  · intro m now ip key record password verify m2 hunlock
    have hclr := handleUnlock_unlocked_clears hunlock
    exact ⟨hclr, fun t2 rec2 pw2 v2 ra =>
      handleUnlock_clear_not_limited t2 rec2 pw2 v2 hclr ra⟩

/-- Witness for C4: ten failures at time 0 rate-limit a correct-password
attempt at t = 5s with a 3595-second retry-after; a successful unlock on a
pair with five recorded failures clears that pair. -/
theorem unlock_rate_limit_state_machine_witness :
    (handleUnlock
      ((List.replicate 9 0).foldl
        (fun acc s => recordUnlockAttempt acc s (str "1.2.3.4") (str "k"))
        (recordUnlockAttempt (fun _ => none) 0 (str "1.2.3.4") (str "k")))
      5000 (str "1.2.3.4") (str "k")
      (some ⟨RecType.uri, str "https://a.com", some (str "h"), none, none⟩)
      (some (str "pw")) true).1 =
      UnlockOutcome.rateLimited (some 3595) ∧
    (handleUnlock
      (fun x => if x = rateLimitKey (str "1.2.3.4") (str "k")
        then some ⟨5, 7200000⟩ else none)
      0 (str "1.2.3.4") (str "k")
      (some ⟨RecType.uri, str "https://a.com", some (str "h"), none, none⟩)
      (some (str "pw")) true).2 (rateLimitKey (str "1.2.3.4") (str "k")) = none := by
  constructor
  · have h := unlock_rate_limit_state_machine.1 (fun _ => none)
      (str "1.2.3.4") (str "k") 0 (List.replicate 9 0) 5000
      (some ⟨RecType.uri, str "https://a.com", some (str "h"), none, none⟩)
      (some (str "pw")) true rfl (by decide) (by decide) (by decide)
    rw [h]
    decide
  · exact (unlock_rate_limit_state_machine.2
      (fun x => if x = rateLimitKey (str "1.2.3.4") (str "k")
        then some ⟨5, 7200000⟩ else none)
      0 (str "1.2.3.4") (str "k")
      (some ⟨RecType.uri, str "https://a.com", some (str "h"), none, none⟩)
      (some (str "pw")) true _ rfl).1

/-! ## Bulk save at the placeholder and no-bracket inputs (C1, C2)

`parseBulkFormat` captures the bracketed `********` placeholder as an
ordinary `rawPassword` (storage.ts lines 195-213 have no placeholder
check), and `handleSave` hashes every truthy `rawPassword`
(admin.ts line 898), so a placeholder submission replaces the stored hash
with `hash("********")`; an entry with no bracket at all leaves
`rawPassword` unset, and the `else if (existingRecord?.passwordHash)`
branch (admin.ts line 900) then carries the old hash forward instead of
removing it.  Both behaviours contradict the repository's own
documentation ("To change a password, replace `[********]` ...; to remove
a password, remove the `[********]` entirely") and the comment on line
901. -/

theorem handleSaveModel_eq (existing : List (Str × StoredRecord)) (m : RecMap)
    (text : Str) (hash : Str → Str) (now : Str) (validUrl : Str → Bool)
    (he : (parseBulkFormat text).errors = [])
    (hok : ((parseBulkFormat text).entries.any
      (fun e => !isValidKeyB e.key ||
        (e.record.type = RecType.uri && !validUrl e.record.content))) = false) :
    handleSaveModel existing m text hash now validUrl =
      some (savePhase
        (deletePhase m (existing.map (fun p => p.1))
          ((parseBulkFormat text).entries.map (fun e => e.key)))
        existing (parseBulkFormat text).entries hash now) := by
  unfold handleSaveModel
  simp [he, hok]

/-- **C1** (code evaluation at the failing input).  Submitting
`bar [********] -> https://x.com` for a key `bar` whose stored record has
password hash `h` makes `handleSave` treat the placeholder as a new raw
password: the parsed entry carries `rawPassword = some "********"` and the
saved record's hash is `hash("********")` — not the preserved `h` the spec
requires. -/
theorem bulk_save_rehashes_placeholder (hash : Str → Str) (now h : Str)
    (validUrl : Str → Bool) (hne : h ≠ [])
    (hv : validUrl (str "https://x.com") = true) :
    (parseBulkFormat (str "bar [********] -> https://x.com")).entries.map
      (fun e => e.rawPassword) = [some placeholderStr] ∧
    ∃ m2, handleSaveModel
        [(str "bar",
          ⟨RecType.uri, str "https://old.com", some h, some (str "c0"), none⟩)]
        (fun _ => none) (str "bar [********] -> https://x.com") hash now validUrl =
          some m2 ∧
      (m2 (str "bar")).map (fun r => r.passwordHash) =
        some (some (hash placeholderStr)) ∧
      (hash placeholderStr ≠ h →
        (m2 (str "bar")).map (fun r => r.passwordHash) ≠ some (some h)) := by
  have hparse : parseBulkFormat (str "bar [********] -> https://x.com") =
      ⟨[⟨str "bar", ⟨RecType.uri, str "https://x.com", none, none, none⟩,
         some placeholderStr⟩], []⟩ := by decide
  have hrun := handleSaveModel_eq
    [(str "bar", ⟨RecType.uri, str "https://old.com", some h, some (str "c0"), none⟩)]
    (fun _ => none) (str "bar [********] -> https://x.com") hash now validUrl
    (by rw [hparse])
    (by rw [hparse]
        simp only [List.any_cons, List.any_nil, Bool.or_false]
        rw [hv]
        decide)
  rw [hparse] at hrun
  refine ⟨by rw [hparse]; rfl, _, hrun, ?_, ?_⟩
  · unfold savePhase deletePhase mergeEntry lookupA saveRecordStamp putRec
    simp [jsTruthyOpt, placeholderStr, str]
  · intro hneq hcontra
    unfold savePhase deletePhase mergeEntry lookupA saveRecordStamp putRec at hcontra
    simp [jsTruthyOpt, placeholderStr, str] at hcontra
    exact hneq hcontra

/-- **C2** (code evaluation at the failing input).  Submitting
`bar -> https://x.com` (no bracket) for a key `bar` whose stored record
has password hash `h` does not remove the hash: the entry has no
`rawPassword`, and the save loop copies the existing hash onto the saved
record, which therefore still carries `some h` rather than no hash. -/
theorem bulk_save_no_bracket_keeps_hash (hash : Str → Str) (now h : Str)
    (validUrl : Str → Bool) (hne : h ≠ [])
    (hv : validUrl (str "https://x.com") = true) :
    (parseBulkFormat (str "bar -> https://x.com")).entries.map
      (fun e => e.rawPassword) = [none] ∧
    ∃ m2, handleSaveModel
        [(str "bar",
          ⟨RecType.uri, str "https://old.com", some h, some (str "c0"), none⟩)]
        (fun _ => none) (str "bar -> https://x.com") hash now validUrl = some m2 ∧
      (m2 (str "bar")).map (fun r => r.passwordHash) = some (some h) := by
  have hparse : parseBulkFormat (str "bar -> https://x.com") =
      ⟨[⟨str "bar", ⟨RecType.uri, str "https://x.com", none, none, none⟩,
         none⟩], []⟩ := by decide
  have hrun := handleSaveModel_eq
    [(str "bar", ⟨RecType.uri, str "https://old.com", some h, some (str "c0"), none⟩)]
    (fun _ => none) (str "bar -> https://x.com") hash now validUrl
    (by rw [hparse])
    (by rw [hparse]
        simp only [List.any_cons, List.any_nil, Bool.or_false]
        rw [hv]
        decide)
  rw [hparse] at hrun
  refine ⟨by rw [hparse]; rfl, _, hrun, ?_⟩
  unfold savePhase deletePhase mergeEntry lookupA saveRecordStamp putRec
  simp [jsTruthyOpt, isEmpty_false_of_ne hne, str]

/-- Witness for C1 at a concrete hash function (`hash _ = "H"`,
existing hash `"h"`). -/
theorem bulk_save_rehashes_placeholder_witness :
    ((parseBulkFormat (str "bar [********] -> https://x.com")).entries.map
      (fun e => e.rawPassword) = [some placeholderStr] ∧
    ∃ m2, handleSaveModel
        [(str "bar",
          ⟨RecType.uri, str "https://old.com", some (str "h"), some (str "c0"),
           none⟩)]
        (fun _ => none) (str "bar [********] -> https://x.com")
        (fun _ => str "H") (str "2025-01-01") (fun _ => true) = some m2 ∧
      (m2 (str "bar")).map (fun r => r.passwordHash) =
        some (some ((fun _ => str "H") placeholderStr)) ∧
      ((fun _ => str "H") placeholderStr ≠ str "h" →
        (m2 (str "bar")).map (fun r => r.passwordHash) ≠
          some (some (str "h")))) :=
  bulk_save_rehashes_placeholder (fun _ => str "H") (str "2025-01-01") (str "h")
    (fun _ => true) (by decide) rfl

/-- Witness for C2 at the same concrete instantiation. -/
theorem bulk_save_no_bracket_keeps_hash_witness :
    ((parseBulkFormat (str "bar -> https://x.com")).entries.map
      (fun e => e.rawPassword) = [none] ∧
    ∃ m2, handleSaveModel
        [(str "bar",
          ⟨RecType.uri, str "https://old.com", some (str "h"), some (str "c0"),
           none⟩)]
        (fun _ => none) (str "bar -> https://x.com")
        (fun _ => str "H") (str "2025-01-01") (fun _ => true) = some m2 ∧
      (m2 (str "bar")).map (fun r => r.passwordHash) = some (some (str "h"))) :=
  bulk_save_no_bracket_keeps_hash (fun _ => str "H") (str "2025-01-01") (str "h")
    (fun _ => true) (by decide) rfl

/-! ## Round-trip machinery (C3) -/

theorem insertByKey_perm (p : Str × StoredRecord) (l : List (Str × StoredRecord)) :
    (insertByKey p l).Perm (p :: l) := by
  induction l with
  | nil => exact List.Perm.refl _
  | cons q t ih =>
    unfold insertByKey
    by_cases hle : strLe p.1 q.1
    · simp only [hle, if_true]
      exact List.Perm.refl _
    · simp only [hle, Bool.false_eq_true, if_false]
      exact (ih.cons q).trans (List.Perm.swap p q t)

theorem sortByKey_perm (l : List (Str × StoredRecord)) : (sortByKey l).Perm l := by
  induction l with
  | nil => exact List.Perm.refl _
  | cons p t ih => exact (insertByKey_perm p (sortByKey t)).trans (ih.cons p)

theorem not_lineTerm_ne_nl {c : Char} (h : isLineTerm c = false) : c ≠ '\n' := by
  intro hc
  rw [hc] at h
  exact absurd h (by decide)

theorem getLast?_append_right {X C : Str} (h : C ≠ []) :
    (X ++ C).getLast? = C.getLast? := by
  rw [List.getLast?_append]
  cases hc : C.getLast? with
  | none =>
    exfalso
    apply h
    cases C with
    | nil => rfl
    | cons a t => simp [List.getLast?_concat] at hc
  | some c => rfl

theorem itemsOfRecord_ok (p : Str × StoredRecord) (hk : wfKey p.1)
    (hr : wfRecord p.2) : ∀ it ∈ itemsOfRecord p, itemOk it := by
  obtain ⟨hk1, hk2⟩ := hk
  unfold itemsOfRecord
  unfold wfRecord at hr
  cases htype : p.2.type with
  | uri =>
    rw [htype] at hr
    obtain ⟨hC1, hCtrim, hClt⟩ := hr
    have hb := trim_self_bounds hCtrim
    intro it hit
    simp only [List.mem_singleton] at hit
    subst hit
    by_cases hpw : jsTruthyOpt p.2.passwordHash
    · simp only [hpw, if_true]
      have hline : p.1 ++ str " [********]" ++ str " -> " ++ p.2.content =
          p.1 ++ str " [********] -> " ++ p.2.content := by
        simp [str]
      rw [hline]
      have htrim : trimS (p.1 ++ str " [********] -> " ++ p.2.content) =
          p.1 ++ str " [********] -> " ++ p.2.content := by
        refine trimS_eq_self (fun c hc => ?_) (fun c hc => ?_)
        · rw [List.append_assoc] at hc
          exact head_key_not_ws hk1 hk2 c hc
        · rw [getLast?_append_right hC1] at hc
          exact hb.2 c hc
      refine ⟨?_, ?_⟩
      · rw [htrim]
        exact noteMatch_uri_ph hk1 hk2
      · rw [htrim, redirectMatch_uri_ph hk1 hk2 hC1 hb.1 hClt]
        rfl
    · simp only [hpw, Bool.false_eq_true, if_false, List.append_nil]
      have htrim : trimS (p.1 ++ str " -> " ++ p.2.content) =
          p.1 ++ str " -> " ++ p.2.content := by
        refine trimS_eq_self (fun c hc => ?_) (fun c hc => ?_)
        · rw [List.append_assoc] at hc
          exact head_key_not_ws hk1 hk2 c hc
        · rw [getLast?_append_right hC1] at hc
          exact hb.2 c hc
      refine ⟨?_, ?_⟩
      · rw [htrim]
        exact noteMatch_uri_plain hk1 hk2
      · rw [htrim, redirectMatch_uri_plain hk1 hk2 hC1 hb.1 hClt]
        rfl
  | note =>
    rw [htype] at hr
    intro it hit
    by_cases hpw : jsTruthyOpt p.2.passwordHash
    · simp only [hpw, if_true, List.mem_cons, List.mem_singleton,
        List.not_mem_nil, or_false] at hit
      rcases hit with hit | hit
      · subst hit
        have hline : p.1 ++ str " [********]" ++ str " ---" =
            p.1 ++ str " [********] ---" := by
          simp [str]
        rw [hline]
        have htrim : trimS (p.1 ++ str " [********] ---") =
            p.1 ++ str " [********] ---" := by
          refine trimS_eq_self (fun c hc => ?_) (fun c hc => ?_)
          · exact head_key_not_ws hk1 hk2 c hc
          · rw [getLast?_append_right (by decide)] at hc
            have hgl : (str " [********] ---").getLast? = some '-' := by decide
            rw [hgl] at hc
            cases hc
            decide
        refine ⟨?_, hr, by decide⟩
        · rw [htrim, noteMatch_header_ph hk1 hk2]
          rfl
      · subst hit
        exact Or.inl (by decide)
    · simp only [hpw, Bool.false_eq_true, if_false, List.append_nil,
        List.mem_cons, List.mem_singleton, List.not_mem_nil, or_false] at hit
      rcases hit with hit | hit
      · subst hit
        have htrim : trimS (p.1 ++ str " ---") = p.1 ++ str " ---" := by
          refine trimS_eq_self (fun c hc => ?_) (fun c hc => ?_)
          · exact head_key_not_ws hk1 hk2 c hc
          · rw [getLast?_append_right (by decide)] at hc
            have hgl : (str " ---").getLast? = some '-' := by decide
            rw [hgl] at hc
            cases hc
            decide
        refine ⟨?_, hr, by decide⟩
        · rw [htrim, noteMatch_header_plain hk1 hk2]
          rfl
      · subst hit
        exact Or.inl (by decide)

theorem itemsOfRecord_entries (p : Str × StoredRecord) (hk : wfKey p.1)
    (hr : wfRecord p.2) : docEntries (itemsOfRecord p) = [entryOfRecord p] := by
  obtain ⟨hk1, hk2⟩ := hk
  unfold itemsOfRecord entryOfRecord docEntries
  unfold wfRecord at hr
  cases htype : p.2.type with
  | uri =>
    rw [htype] at hr
    obtain ⟨hC1, hCtrim, hClt⟩ := hr
    have hb := trim_self_bounds hCtrim
    by_cases hpw : jsTruthyOpt p.2.passwordHash
    · simp only [hpw, if_true]
      have hline : p.1 ++ str " [********]" ++ str " -> " ++ p.2.content =
          p.1 ++ str " [********] -> " ++ p.2.content := by
        simp [str]
      have htrim : trimS (p.1 ++ str " [********] -> " ++ p.2.content) =
          p.1 ++ str " [********] -> " ++ p.2.content := by
        refine trimS_eq_self (fun c hc => ?_) (fun c hc => ?_)
        · rw [List.append_assoc] at hc
          exact head_key_not_ws hk1 hk2 c hc
        · rw [getLast?_append_right hC1] at hc
          exact hb.2 c hc
      simp only [List.flatMap_cons, List.flatMap_nil, List.append_nil, itemEntries,
        hline, htrim, redirectMatch_uri_ph hk1 hk2 hC1 hb.1 hClt, hCtrim]
    · simp only [hpw, Bool.false_eq_true, if_false, List.append_nil]
      have htrim : trimS (p.1 ++ str " -> " ++ p.2.content) =
          p.1 ++ str " -> " ++ p.2.content := by
        refine trimS_eq_self (fun c hc => ?_) (fun c hc => ?_)
        · rw [List.append_assoc] at hc
          exact head_key_not_ws hk1 hk2 c hc
        · rw [getLast?_append_right hC1] at hc
          exact hb.2 c hc
      simp only [List.flatMap_cons, List.flatMap_nil, List.append_nil, itemEntries,
        htrim, redirectMatch_uri_plain hk1 hk2 hC1 hb.1 hClt, hCtrim]
  | note =>
    by_cases hpw : jsTruthyOpt p.2.passwordHash
    · simp only [hpw, if_true]
      have hline : p.1 ++ str " [********]" ++ str " ---" =
          p.1 ++ str " [********] ---" := by
        simp [str]
      have htrim : trimS (p.1 ++ str " [********] ---") =
          p.1 ++ str " [********] ---" := by
        refine trimS_eq_self (fun c hc => ?_) (fun c hc => ?_)
        · exact head_key_not_ws hk1 hk2 c hc
        · rw [getLast?_append_right (by decide)] at hc
          have hgl : (str " [********] ---").getLast? = some '-' := by decide
          rw [hgl] at hc
          cases hc
          decide
      simp only [List.flatMap_cons, List.flatMap_nil, List.append_nil, itemEntries,
        hline, htrim, noteMatch_header_ph hk1 hk2, joinLines_splitLines]
    · simp only [hpw, Bool.false_eq_true, if_false, List.append_nil]
      have htrim : trimS (p.1 ++ str " ---") = p.1 ++ str " ---" := by
        refine trimS_eq_self (fun c hc => ?_) (fun c hc => ?_)
        · exact head_key_not_ws hk1 hk2 c hc
        · rw [getLast?_append_right (by decide)] at hc
          have hgl : (str " ---").getLast? = some '-' := by decide
          rw [hgl] at hc
          cases hc
          decide
      simp only [List.flatMap_cons, List.flatMap_nil, List.append_nil, itemEntries,
        htrim, noteMatch_header_plain hk1 hk2, joinLines_splitLines]

theorem itemsOfRecord_lines (p : Str × StoredRecord) (hk : wfKey p.1)
    (hr : wfRecord p.2) :
    (recordLines p.1 p.2).flatMap splitLines = docLines (itemsOfRecord p) := by
  obtain ⟨hk1, hk2⟩ := hk
  have hknl : ∀ c ∈ p.1, c ≠ '\n' := fun c hc => keyChar_ne_nl (hk2 c hc)
  unfold recordLines itemsOfRecord docLines
  unfold wfRecord at hr
  cases htype : p.2.type with
  | uri =>
    rw [htype] at hr
    obtain ⟨hC1, hCtrim, hClt⟩ := hr
    have hCnl : ∀ c ∈ p.2.content, c ≠ '\n' :=
      fun c hc => not_lineTerm_ne_nl (hClt c hc)
    by_cases hpw : jsTruthyOpt p.2.passwordHash
    · simp only [hpw, if_true, List.flatMap_cons, List.flatMap_nil,
        List.append_nil, itemLines]
      rw [splitLines_no_nl]
      intro c hc
      simp only [List.append_assoc, List.mem_append] at hc
      rcases hc with hc | hc | hc | hc
      · exact hknl c hc
      · exact (show ∀ y ∈ str " [********]", y ≠ '\n' by decide) c hc
      · exact (show ∀ y ∈ str " -> ", y ≠ '\n' by decide) c hc
      · exact hCnl c hc
    · simp only [hpw, Bool.false_eq_true, if_false, List.append_nil,
        List.flatMap_cons, List.flatMap_nil, itemLines]
      rw [splitLines_no_nl]
      intro c hc
      simp only [List.append_assoc, List.mem_append] at hc
      rcases hc with hc | hc | hc
      · exact hknl c hc
      · exact (show ∀ y ∈ str " -> ", y ≠ '\n' by decide) c hc
      · exact hCnl c hc
  | note =>
    by_cases hpw : jsTruthyOpt p.2.passwordHash
    · simp only [hpw, if_true, List.flatMap_cons, List.flatMap_nil,
        List.append_nil, itemLines]
      rw [splitLines_no_nl (l := p.1 ++ str " [********]" ++ str " ---") ?hnl]
      case hnl =>
        intro c hc
        simp only [List.append_assoc, List.mem_append] at hc
        rcases hc with hc | hc | hc
        · exact hknl c hc
        · exact (show ∀ y ∈ str " [********]", y ≠ '\n' by decide) c hc
        · exact (show ∀ y ∈ str " ---", y ≠ '\n' by decide) c hc
      simp [splitLines]
      decide
    · simp only [hpw, Bool.false_eq_true, if_false, List.append_nil,
        List.flatMap_cons, List.flatMap_nil, itemLines]
      rw [splitLines_no_nl (l := p.1 ++ str " ---") ?hnl]
      case hnl =>
        intro c hc
        simp only [List.append_assoc, List.mem_append] at hc
        rcases hc with hc | hc
        · exact hknl c hc
        · exact (show ∀ y ∈ str " ---", y ≠ '\n' by decide) c hc
      simp [splitLines]
      decide

theorem flat_records_lines :
    ∀ (l : List (Str × StoredRecord)), (∀ p ∈ l, wfKey p.1) →
      (∀ p ∈ l, wfRecord p.2) →
      (l.flatMap (fun p => recordLines p.1 p.2)).flatMap splitLines =
        (l.flatMap itemsOfRecord).flatMap itemLines := by
  intro l
  induction l with
  | nil => simp
  | cons p t ih =>
    intro hk hr
    simp only [List.flatMap_cons, List.flatMap_append]
    rw [itemsOfRecord_lines p (hk p (by simp)) (hr p (by simp)),
      ih (fun q hq => hk q (by simp [hq])) (fun q hq => hr q (by simp [hq]))]
    rfl

theorem flat_records_entries :
    ∀ (l : List (Str × StoredRecord)), (∀ p ∈ l, wfKey p.1) →
      (∀ p ∈ l, wfRecord p.2) →
      (l.flatMap itemsOfRecord).flatMap itemEntries = l.map entryOfRecord := by
  intro l
  induction l with
  | nil => simp
  | cons p t ih =>
    intro hk hr
    simp only [List.flatMap_cons, List.flatMap_append, List.map_cons]
    rw [show (itemsOfRecord p).flatMap itemEntries = docEntries (itemsOfRecord p)
        from rfl,
      itemsOfRecord_entries p (hk p (by simp)) (hr p (by simp)),
      ih (fun q hq => hk q (by simp [hq])) (fun q hq => hr q (by simp [hq]))]
    rfl

theorem serialize_items_ok (records : List (Str × StoredRecord))
    (hk : ∀ p ∈ records, wfKey p.1) (hr : ∀ p ∈ records, wfRecord p.2) :
    ∀ it ∈ headerItems ++ (sortByKey records).flatMap itemsOfRecord, itemOk it := by
  intro it hit
  rw [List.mem_append] at hit
  rcases hit with hit | hit
  · simp only [headerItems, headerLines, List.map_cons, List.map_nil,
      List.mem_cons, List.not_mem_nil, or_false] at hit
    rcases hit with h | h | h | h | h | h | h <;> subst h <;> unfold itemOk
    · exact Or.inr (by decide)
    · exact Or.inr (by decide)
    · exact Or.inr (by decide)
    · exact Or.inr (by decide)
    · exact Or.inr (by decide)
    · exact Or.inr (by decide)
    · exact Or.inl (by decide)
  · rw [List.mem_flatMap] at hit
    obtain ⟨p, hp, hitp⟩ := hit
    have hpr : p ∈ records := (sortByKey_perm records).mem_iff.mp hp
    exact itemsOfRecord_ok p (hk p hpr) (hr p hpr) it hitp

/-- Parsing the serializer's output yields exactly the per-record entries
of the sorted records, with no errors. -/
theorem serialize_parse_eq (records : List (Str × StoredRecord))
    (hk : ∀ p ∈ records, wfKey p.1) (hr : ∀ p ∈ records, wfRecord p.2) :
    parseBulkFormat (serializeBulkFormat records) =
      ⟨(sortByKey records).map entryOfRecord, []⟩ := by
  have hsk : ∀ p ∈ sortByKey records, wfKey p.1 :=
    fun p hp => hk p ((sortByKey_perm records).mem_iff.mp hp)
  have hsr : ∀ p ∈ sortByKey records, wfRecord p.2 :=
    fun p hp => hr p ((sortByKey_perm records).mem_iff.mp hp)
  have hlines : splitLines (serializeBulkFormat records) =
      docLines (headerItems ++ (sortByKey records).flatMap itemsOfRecord) := by
    unfold serializeBulkFormat
    rw [splitLines_joinLines_flat _ (by simp [headerLines])]
    rw [List.flatMap_append]
    have hhead : headerLines.flatMap splitLines = headerItems.flatMap itemLines := by
      decide
    unfold docLines
    rw [List.flatMap_append, hhead, flat_records_lines _ hsk hsr]
  have hentries :
      docEntries (headerItems ++ (sortByKey records).flatMap itemsOfRecord) =
        (sortByKey records).map entryOfRecord := by
    unfold docEntries
    rw [List.flatMap_append]
    have hh : headerItems.flatMap itemEntries = [] := by decide
    rw [hh, flat_records_entries _ hsk hsr]
    rfl
  unfold parseBulkFormat
  rw [hlines]
  rw [show docLines (headerItems ++ (sortByKey records).flatMap itemsOfRecord) =
      docLines (headerItems ++ (sortByKey records).flatMap itemsOfRecord) ++ []
    by simp]
  rw [parseLoop_items _ (serialize_items_ok records hk hr) [] 0, parseLoop_nil]
  simp [hentries]

/-- **C3** (amended).  Round-trip for representable maps: for every
association list of records (no plaintext passwords pending — stored
records carry only hashes) whose keys are nonempty strings over
`[A-Za-z0-9_-]` and whose contents the format can carry (a redirect target
nonempty, already trimmed and free of line terminators; a note body with
no line trimming to `---`), parsing the serialized document yields no
errors, the same multiset of keys, and for each record an entry with the
same key, type and content, whose password is represented by the `********`
placeholder exactly when a (truthy) hash was stored — never by any
plaintext. -/
theorem serialize_parse_roundtrip (records : List (Str × StoredRecord))
    (hk : ∀ p ∈ records, wfKey p.1) (hr : ∀ p ∈ records, wfRecord p.2) :
    (parseBulkFormat (serializeBulkFormat records)).errors = [] ∧
    ((parseBulkFormat (serializeBulkFormat records)).entries.map
      (fun e => e.key)).Perm (records.map (fun p => p.1)) ∧
    (∀ p ∈ records,
      ∃ e ∈ (parseBulkFormat (serializeBulkFormat records)).entries,
        e.key = p.1 ∧ e.record.type = p.2.type ∧
        e.record.content = p.2.content ∧
        e.rawPassword =
          (if jsTruthyOpt p.2.passwordHash then some placeholderStr else none)) ∧
    (∀ e ∈ (parseBulkFormat (serializeBulkFormat records)).entries,
      ∃ p ∈ records, e.key = p.1 ∧ e.record.type = p.2.type ∧
        e.record.content = p.2.content ∧
        e.rawPassword =
          (if jsTruthyOpt p.2.passwordHash then some placeholderStr else none)) := by
  rw [serialize_parse_eq records hk hr]
  refine ⟨rfl, ?_, ?_, ?_⟩
  · rw [List.map_map]
    exact (sortByKey_perm records).map (fun p => p.1)
  · intro p hp
    refine ⟨entryOfRecord p, ?_, rfl, rfl, rfl, rfl⟩
    exact List.mem_map_of_mem _ ((sortByKey_perm records).mem_iff.mpr hp)
  · intro e he
    simp only [List.mem_map] at he
    obtain ⟨p, hp, hpe⟩ := he
    exact ⟨p, (sortByKey_perm records).mem_iff.mp hp,
      by subst hpe; rfl, by subst hpe; rfl, by subst hpe; rfl, by subst hpe; rfl⟩

/-- Counterexample to C3 as frozen: the (hash-free, valid-keyed) map
`{ a ↦ note "---" }` does not round-trip — serialization emits the note
body on its own line, the parser closes the block at it, and the real
closer becomes an unrecognized-format error; the recovered content is `""`
rather than `"---"`. -/
theorem serialize_parse_roundtrip_counterexample :
    (parseBulkFormat (serializeBulkFormat
      [(str "a", ⟨RecType.note, str "---", none, none, none⟩)])).errors ≠ [] ∧
    (parseBulkFormat (serializeBulkFormat
      [(str "a", ⟨RecType.note, str "---", none, none, none⟩)])).entries.map
        (fun e => e.record.content) = [[]] := by
  decide

/-- Witness for the amended C3 on a two-record map (one passworded
redirect, one note). -/
theorem serialize_parse_roundtrip_witness :
    (parseBulkFormat (serializeBulkFormat
      [(str "b", ⟨RecType.uri, str "https://b.com", some (str "h"), none, none⟩),
       (str "a", ⟨RecType.note, str "line1\nline2", none, none, none⟩)])).errors =
      [] ∧
    (parseBulkFormat (serializeBulkFormat
      [(str "b", ⟨RecType.uri, str "https://b.com", some (str "h"), none, none⟩),
       (str "a", ⟨RecType.note, str "line1\nline2", none, none, none⟩)])).entries =
      [⟨str "a", ⟨RecType.note, str "line1\nline2", none, none, none⟩, none⟩,
       ⟨str "b", ⟨RecType.uri, str "https://b.com", none, none, none⟩,
        some placeholderStr⟩] := by
  have h := serialize_parse_roundtrip
    [(str "b", ⟨RecType.uri, str "https://b.com", some (str "h"), none, none⟩),
     (str "a", ⟨RecType.note, str "line1\nline2", none, none, none⟩)]
    (by intro p hp
        simp only [List.mem_cons, List.not_mem_nil, or_false] at hp
        rcases hp with h | h <;> subst h <;> exact ⟨by decide, by decide⟩)
    (by intro p hp
        simp only [List.mem_cons, List.not_mem_nil, or_false] at hp
        rcases hp with h | h <;> subst h <;> (unfold wfRecord; decide))
  exact ⟨h.1, by decide⟩

end RQ
